import Mathlib

/-!
Verification of the reconciliation engine of the `certified` repository
(`src/lib/establishments/utils.ts` and the refresh pipeline in
`src/app/api/data/route.ts`).

The TypeScript code is shallowly embedded below.  JavaScript numbers are
modelled as exact rationals tagged with the non-finite values `NaN`,
`Infinity` and `-Infinity`; JavaScript runtime values are modelled by the
inductive type `JSVal`.  Object identity is not modelled: `Map`/`Set`
keys are compared structurally, which agrees with JavaScript's
SameValueZero on all primitive keys (the only keys arising here).
-/

set_option maxHeartbeats 1000000

namespace Certified

/-- A JavaScript number: a finite value (modelled exactly as a rational)
or one of the special values `NaN`, `Infinity`, `-Infinity`. -/
inductive JSNum where
  | num (q : ℚ)
  | nan
  | posInf
  | negInf
deriving DecidableEq, Repr

namespace JSNum

/-- `Number.isFinite` on a JavaScript number. -/
def isFiniteB : JSNum → Bool
  | .num _ => true
  | _ => false

end JSNum

/-- A JavaScript runtime value (no function values; object identity is
not modelled, objects are association lists of fields). -/
inductive JSVal where
  | undef
  | jnull
  | jbool (b : Bool)
  | jnum (n : JSNum)
  | jstr (s : String)
  | jarr (elems : List JSVal)
  | jobj (fields : List (String × JSVal))

namespace JSVal

/-- JavaScript truthiness: `undefined`, `null`, `false`, `0`, `NaN` and
the empty string are falsy, everything else (including every object and
array) is truthy. -/
def truthy : JSVal → Bool
  | .undef => false
  | .jnull => false
  | .jbool b => b
  | .jnum (.num q) => q != 0
  | .jnum .nan => false
  | .jnum _ => true
  | .jstr s => s != ""
  | .jarr _ => true
  | .jobj _ => true

/-- `v == null` / `v == undefined` (loose nullish test, as used by `??`
and optional chaining). -/
def nullish : JSVal → Bool
  | .undef => true
  | .jnull => true
  | _ => false

end JSVal

/-- The set of characters treated as whitespace by JavaScript's
`String.prototype.trim` (WhiteSpace and LineTerminator code points). -/
def jsWhitespaceChar (c : Char) : Bool :=
  c = ' ' || c = '\t' || c = '\n' || c = '\r' ||
  c.val = 0x0B || c.val = 0x0C || c.val = 0xA0 || c.val = 0x1680 ||
  (0x2000 ≤ c.val && c.val ≤ 0x200A) || c.val = 0x2028 || c.val = 0x2029 ||
  c.val = 0x202F || c.val = 0x205F || c.val = 0x3000 || c.val = 0xFEFF

/-- `String.prototype.trim`: drop leading and trailing whitespace. -/
def jsTrim (s : String) : String :=
  ⟨(((s.data.dropWhile jsWhitespaceChar).reverse.dropWhile jsWhitespaceChar).reverse)⟩

/-- Digit characters of a natural number, most significant first. -/
def natToString (n : Nat) : String := toString n

/-- Decimal digits of the fractional part of a non-negative rational,
produced by repeated multiplication by 10.  `fuel` bounds the number of
digits; every IEEE double is a dyadic rational whose decimal expansion
terminates, so for the values a JavaScript program can actually hold the
fuel is never exhausted. -/
def fracDigits : Nat → ℚ → String
  | 0, _ => ""
  | _, 0 => ""
  | fuel + 1, r =>
    let r10 := r * 10
    let d : ℤ := ⌊r10⌋
    natToString d.toNat ++ fracDigits fuel (r10 - (d : ℚ))

/-- JavaScript's `Number`-to-`String` conversion for a finite number,
restricted to plain decimal notation (the exponent-notation thresholds
at `1e21`/`1e-6` are not modelled; no claim depends on them). -/
def qToString (q : ℚ) : String :=
  if q = 0 then "0"
  else
    let sign := if q < 0 then "-" else ""
    let a := |q|
    let ip : ℤ := ⌊a⌋
    let frac := a - (ip : ℚ)
    let fracStr := fracDigits 1200 frac
    sign ++ natToString ip.toNat ++ (if fracStr = "" then "" else "." ++ fracStr)

/-- `String(n)` for a JavaScript number. -/
def jsNumToString : JSNum → String
  | .num q => qToString q
  | .nan => "NaN"
  | .posInf => "Infinity"
  | .negInf => "-Infinity"

mutual

/-- JavaScript `ToString` on a value (template-literal interpolation,
`String(v)`).  Arrays stringify by joining their elements with `","`,
mapping `null`/`undefined` elements to the empty string; plain objects
stringify to `"[object Object]"`. -/
def jsToString : JSVal → String
  | .undef => "undefined"
  | .jnull => "null"
  | .jbool b => if b then "true" else "false"
  | .jnum n => jsNumToString n
  | .jstr s => s
  | .jarr xs => jsArrToString xs
  | .jobj _ => "[object Object]"
termination_by structural v => v

/-- `Array.prototype.toString`: elements joined with `","`, with
`null` and `undefined` elements contributing the empty string. -/
def jsArrToString : List JSVal → String
  | [] => ""
  | [.undef] => ""
  | [.jnull] => ""
  | [v] => jsToString v
  | .undef :: xs => "," ++ jsArrToString xs
  | .jnull :: xs => "," ++ jsArrToString xs
  | v :: xs => jsToString v ++ "," ++ jsArrToString xs
termination_by structural l => l

end

mutual

/-- SameValueZero (the key-equality used by `Map` and `Set`): `NaN`
equals `NaN`; otherwise primitive values compare by value.  Objects and
arrays compare by reference in JavaScript; here they are compared
structurally (object-valued keys do not arise in this code base). -/
def svz : JSVal → JSVal → Bool
  | .undef, .undef => true
  | .jnull, .jnull => true
  | .jbool a, .jbool b => a == b
  | .jnum a, .jnum b => a == b
  | .jstr a, .jstr b => a == b
  | .jarr a, .jarr b => svzList a b
  | .jobj a, .jobj b => svzFields a b
  | _, _ => false
termination_by structural v => v

/-- Elementwise SameValueZero on arrays. -/
def svzList : List JSVal → List JSVal → Bool
  | [], [] => true
  | a :: as, b :: bs => svz a b && svzList as bs
  | _, _ => false
termination_by structural l => l

/-- Fieldwise SameValueZero on objects. -/
def svzFields : List (String × JSVal) → List (String × JSVal) → Bool
  | [], [] => true
  | (ka, va) :: as, (kb, vb) :: bs => ka == kb && svz va vb && svzFields as bs
  | _, _ => false
termination_by structural l => l

end

/-- JavaScript strict equality `===`: like SameValueZero except that
`NaN === NaN` is false, and two distinct object/array references are
never equal.  The embedding only ever compares values produced by
distinct object literals, so object and array operands yield `false`. -/
def jsStrictEq : JSVal → JSVal → Bool
  | .undef, .undef => true
  | .jnull, .jnull => true
  | .jbool a, .jbool b => a == b
  | .jnum (.num a), .jnum (.num b) => a == b
  | .jnum .posInf, .jnum .posInf => true
  | .jnum .negInf, .jnum .negInf => true
  | .jstr a, .jstr b => a == b
  | _, _ => false

/-- Value of a list of decimal digit characters. -/
def digitsVal (cs : List Char) : Nat :=
  cs.foldl (fun acc c => acc * 10 + (c.toNat - '0'.toNat)) 0

/-- Value of a list of hexadecimal digit characters. -/
def hexDigitsVal (cs : List Char) : Nat :=
  cs.foldl (fun acc c =>
    acc * 16 +
      (if c.isDigit then c.toNat - '0'.toNat
       else if 'a' ≤ c && c ≤ 'f' then c.toNat - 'a'.toNat + 10
       else c.toNat - 'A'.toNat + 10)) 0

/-- `10 ^ e` over ℚ for an integer exponent. -/
def qPow10 (e : ℤ) : ℚ :=
  if 0 ≤ e then ((10 : ℚ) ^ e.toNat) else 1 / ((10 : ℚ) ^ (-e).toNat)

/-- Parse an unsigned decimal literal (`digits`, `digits.digits?`,
`.digits`, each with an optional exponent part) as the longest valid
prefix of `cs`.  Returns the exact rational value and the unconsumed
rest; `none` when no digits are present.  An `e`/`E` is consumed only
when followed by a well-formed exponent. -/
def parseDecPrefix (cs : List Char) : Option (ℚ × List Char) :=
  let ipart := cs.takeWhile Char.isDigit
  let rest1 := cs.dropWhile Char.isDigit
  let withFrac :
      Option ((ℚ × ℚ) × List Char) :=
    match rest1 with
    | '.' :: rest2 =>
      let fpart := rest2.takeWhile Char.isDigit
      let rest3 := rest2.dropWhile Char.isDigit
      if ipart.isEmpty && fpart.isEmpty then none
      else
        some ((digitsVal ipart, (digitsVal fpart : ℚ) / qPow10 fpart.length), rest3)
    | _ =>
      if ipart.isEmpty then none
      else some ((digitsVal ipart, 0), rest1)
  match withFrac with
  | none => none
  | some ((ip, fp), rest) =>
    let base := ip + fp
    match rest with
    | 'e' :: rest4 | 'E' :: rest4 =>
      let (esign, rest5) :=
        match rest4 with
        | '+' :: r => ((1 : ℤ), r)
        | '-' :: r => ((-1 : ℤ), r)
        | r => ((1 : ℤ), r)
      let edigits := rest5.takeWhile Char.isDigit
      let rest6 := rest5.dropWhile Char.isDigit
      if edigits.isEmpty then some (base, rest)
      else some (base * qPow10 (esign * (digitsVal edigits : ℤ)), rest6)
    | _ => some (base, rest)

/-- JavaScript `parseFloat`: skip leading whitespace, then parse the
longest prefix that is a signed decimal literal or `Infinity`; `NaN`
when no such prefix exists.  (The model yields the exact rational value
rather than the nearest IEEE double.) -/
def parseFloatJS (s : String) : JSNum :=
  let cs := s.data.dropWhile jsWhitespaceChar
  let (sign, cs1) :
      (ℚ → JSNum) × List Char :=
    match cs with
    | '+' :: r => (fun q => .num q, r)
    | '-' :: r => (fun q => .num (-q), r)
    | r => (fun q => .num q, r)
  let negative := match cs with | '-' :: _ => true | _ => false
  if cs1.take 8 = "Infinity".data then
    if negative then .negInf else .posInf
  else
    match parseDecPrefix cs1 with
    | some (q, _) => sign q
    | none => .nan

/-- JavaScript `StringToNumber` (the behaviour of `Number(s)` on a
string): the whole trimmed string must be a numeric literal; the empty
string is `0`; hex/octal/binary prefixes are supported; anything else is
`NaN`. -/
def stringToNumber (s : String) : JSNum :=
  let t := (jsTrim s).data
  if t.isEmpty then .num 0
  else
    match t with
    | '0' :: 'x' :: r | '0' :: 'X' :: r =>
      if !r.isEmpty && r.all (fun c => c.isDigit || ('a' ≤ c && c ≤ 'f') || ('A' ≤ c && c ≤ 'F'))
      then .num (hexDigitsVal r) else .nan
    | '0' :: 'o' :: r | '0' :: 'O' :: r =>
      if !r.isEmpty && r.all (fun c => '0' ≤ c && c ≤ '7')
      then .num (r.foldl (fun acc c => acc * 8 + (c.toNat - '0'.toNat)) 0) else .nan
    | '0' :: 'b' :: r | '0' :: 'B' :: r =>
      if !r.isEmpty && r.all (fun c => c = '0' || c = '1')
      then .num (r.foldl (fun acc c => acc * 2 + (c.toNat - '0'.toNat)) 0) else .nan
    | _ =>
      let (applySign, t1, negative) :
          (ℚ → ℚ) × List Char × Bool :=
        match t with
        | '+' :: r => (id, r, false)
        | '-' :: r => (fun q => -q, r, true)
        | r => (id, r, false)
      if t1 = "Infinity".data then
        if negative then .negInf else .posInf
      else
        match parseDecPrefix t1 with
        | some (q, []) => .num (applySign q)
        | _ => .nan

/-- JavaScript `ToNumber` coercion (`Number(v)`).  Objects and arrays
go through `ToPrimitive`, i.e. their `toString`. -/
def jsToNumber : JSVal → JSNum
  | .undef => .nan
  | .jnull => .num 0
  | .jbool b => .num (if b then 1 else 0)
  | .jnum n => n
  | .jstr s => stringToNumber s
  | .jarr xs => stringToNumber (jsArrToString xs)
  | .jobj _ => stringToNumber "[object Object]"

/-- The named-entity lookup table `HTML_ENTITY_MAP` of
`src/lib/establishments/utils.ts`. -/
def htmlEntityMap : List (String × String) :=
  [("amp", "&"), ("apos", "'"), ("quot", "\""), ("lt", "<"), ("gt", ">"),
   ("nbsp", " "), ("rsquo", "'"), ("lsquo", "'"), ("ldquo", "\""),
   ("rdquo", "\""), ("hellip", "..."), ("ndash", "-"), ("mdash", "—"),
   ("deg", "°"), ("euro", "€"), ("copy", "©"), ("reg", "®"),
   ("trade", "™"), ("laquo", "«"), ("raquo", "»"), ("agrave", "à"),
   ("aacute", "á"), ("acirc", "â"), ("auml", "ä"), ("aring", "å"),
   ("aelig", "æ"), ("ccedil", "ç"), ("egrave", "è"), ("eacute", "é"),
   ("ecirc", "ê"), ("euml", "ë"), ("igrave", "ì"), ("iacute", "í"),
   ("icirc", "î"), ("iuml", "ï"), ("ograve", "ò"), ("oacute", "ó"),
   ("ocirc", "ô"), ("otilde", "õ"), ("ouml", "ö"), ("oslash", "ø"),
   ("ugrave", "ù"), ("uacute", "ú"), ("ucirc", "û"), ("uuml", "ü"),
   ("yacute", "ý"), ("yuml", "ÿ"), ("oelig", "œ")]

/-- A character allowed after the first letter of a named entity:
`[\w-]`, i.e. letters, digits, underscore and hyphen. -/
def entityWordChar (c : Char) : Bool :=
  c.isAlpha || c.isDigit || c = '_' || c = '-'

/-- ASCII lowercase, as `String.prototype.toLowerCase` applied to the
entity names occurring here (all ASCII). -/
def jsLower (s : String) : String := s.toLower

/-- A hexadecimal digit `[0-9a-fA-F]`. -/
def isHexDigit (c : Char) : Bool :=
  c.isDigit || ('a' ≤ c && c ≤ 'f') || ('A' ≤ c && c ≤ 'F')

/-- The replacement for a numeric character reference with code point
`n` together with its original matched text `orig`: the decoded code
point when `String.fromCodePoint` accepts it, the original text
otherwise.  (JavaScript additionally accepts lone-surrogate code points,
which Lean strings cannot represent; those keep the original text here —
unobservable by any claim.) -/
def codePointReplacement (n : Nat) (orig : String) : String :=
  if n.isValidChar then String.singleton (Char.ofNat n) else orig

/-- Try to match one HTML entity at the position just after a `&`:
returns the replacement string and the unconsumed rest on a match of
`#(?:x[0-9a-fA-F]+|\d+)|[a-zA-Z][\w-]*` followed by `;`. -/
def tryEntity (cs : List Char) : Option (String × List Char) :=
  match cs with
  | '#' :: 'x' :: rest =>
    let digits := rest.takeWhile isHexDigit
    let rest2 := rest.dropWhile isHexDigit
    if digits.isEmpty then none
    else
      match rest2 with
      | ';' :: rest3 =>
        some (codePointReplacement (hexDigitsVal digits)
          ("&#x" ++ ⟨digits⟩ ++ ";"), rest3)
      | _ => none
  | '#' :: rest =>
    let digits := rest.takeWhile Char.isDigit
    let rest2 := rest.dropWhile Char.isDigit
    if digits.isEmpty then none
    else
      match rest2 with
      | ';' :: rest3 =>
        some (codePointReplacement (digitsVal digits)
          ("&#" ++ ⟨digits⟩ ++ ";"), rest3)
      | _ => none
  | c :: rest =>
    if c.isAlpha then
      let tail := rest.takeWhile entityWordChar
      let rest2 := rest.dropWhile entityWordChar
      match rest2 with
      | ';' :: rest3 =>
        let name : String := ⟨c :: tail⟩
        match htmlEntityMap.lookup (jsLower name) with
        | some rep => some (rep, rest3)
        | none => some ("&" ++ name ++ ";", rest3)
      | _ => none
    else none
  | [] => none

/-- Scanner for `decodeHtmlEntities`: at each `&` try to match an entity
(and if so, emit its replacement and continue after the `;`), otherwise
copy one character.  `fuel` bounds the number of steps; it is
instantiated with the input length, which suffices because every step
consumes at least one character. -/
def decodeEntitiesGo : Nat → List Char → List Char
  | 0, cs => cs
  | _ + 1, [] => []
  | fuel + 1, c :: cs =>
    if c = '&' then
      match tryEntity cs with
      | some (rep, rest) => rep.data ++ decodeEntitiesGo fuel rest
      | none => c :: decodeEntitiesGo fuel cs
    else c :: decodeEntitiesGo fuel cs

/-- `decodeHtmlEntities` of `src/lib/establishments/utils.ts`: replace
each match of `HTML_ENTITY_PATTERN` by its decoded form (numeric
references by their code point when valid, named entities via the
lookup table, anything unknown kept verbatim). -/
def decodeHtmlEntities (value : String) : String :=
  ⟨decodeEntitiesGo value.data.length value.data⟩

/-- `sanitizeText`: strings are entity-decoded and trimmed (empty after
trimming ⇒ `undefined`); finite numbers are stringified; every other
value is `undefined`. -/
def sanitizeText (value : JSVal) : Option String :=
  match value with
  | .jstr s =>
    let trimmed := jsTrim (decodeHtmlEntities s)
    if trimmed.length > 0 then some trimmed else none
  | .jnum n =>
    match n with
    | .num q => some (qToString q)
    | _ => none
  | _ => none

/-- Iteration of `Set` insertion: keep an element when it has not been
seen yet. -/
def dedupGo [DecidableEq α] (seen : List α) : List α → List α
  | [] => []
  | x :: xs => if x ∈ seen then dedupGo seen xs else x :: dedupGo (seen ++ [x]) xs

/-- Keep the first occurrence of each element, as iteration over a
JavaScript `Set` built from a list (`Array.from(new Set(xs))`). -/
def dedupKeepFirst [DecidableEq α] (l : List α) : List α := dedupGo [] l

/-- Insert into a list sorted by `le` (used to model
`Array.prototype.sort` with a total comparator). -/
def sortedInsert (le : α → α → Bool) (x : α) : List α → List α
  | [] => [x]
  | y :: ys => if le x y then x :: y :: ys else y :: sortedInsert le x ys

/-- Insertion sort by `le`. -/
def insertionSort (le : α → α → Bool) : List α → List α
  | [] => []
  | x :: xs => sortedInsert le x (insertionSort le xs)

/-- `toNumberArray`: arrays map through `Number` and keep the finite
results, deduplicated in first-seen order; a finite number becomes a
singleton; a non-blank numeric string parses to a singleton; everything
else is empty. -/
def toNumberArray (value : JSVal) : List ℚ :=
  match value with
  | .jarr xs =>
    dedupKeepFirst (xs.filterMap (fun v =>
      match jsToNumber v with
      | .num q => some q
      | _ => none))
  | .jnum n =>
    match n with
    | .num q => [q]
    | _ => []
  | .jstr s =>
    if (jsTrim s).length > 0 then
      match stringToNumber s with
      | .num q => [q]
      | _ => []
    else []
  | _ => []

/-- `toStringArray`: arrays map through `ToString` and trim, keep the
non-empty results deduplicated in first-seen order; a string trims to a
singleton when non-empty; everything else is empty. -/
def toStringArray (value : JSVal) : List String :=
  match value with
  | .jarr xs =>
    dedupKeepFirst ((xs.map (fun v => jsTrim (jsToString v))).filter (·.length > 0))
  | .jstr s =>
    let trimmed := jsTrim s
    if trimmed.length > 0 then [trimmed] else []
  | _ => []

/-- `uniqueNumbers`: deduplicate, then sort ascending. -/
def uniqueNumbers (values : List ℚ) : List ℚ :=
  insertionSort (fun a b => a ≤ b) (dedupKeepFirst values)

/-- `uniqueStrings`: drop empty strings and deduplicate (no sort). -/
def uniqueStrings (values : List String) : List String :=
  dedupKeepFirst (values.filter (fun v => v ≠ ""))

/-- `normalizeComparableString`: the sanitized text lowercased, or the
empty string when sanitization yields nothing.  (`String.toLower` is
ASCII-only whereas JavaScript's `toLowerCase` is full Unicode; the
difference does not affect any claim.) -/
def normalizeComparableString (value : JSVal) : String :=
  match sanitizeText value with
  | some s => jsLower s
  | none => ""

/-- `areNumbersClose` with the default tolerance `0.0001`: coerce both
operands with `Number`; two non-finite results are close, one
non-finite result is not, and two finite results compare by absolute
difference. -/
def areNumbersClose (a b : JSVal) : Bool :=
  match jsToNumber a, jsToNumber b with
  | .num x, .num y => |x - y| ≤ 1 / 10000
  | .num _, _ => false
  | _, .num _ => false
  | _, _ => true

/-- `Number.prototype.toFixed(4)`: round `|q| · 10⁴` to the nearest
integer (ties away from zero) and print with exactly four decimals,
with a leading `-` when `q < 0`. -/
def toFixed4 (q : ℚ) : String :=
  let sign := if q < 0 then "-" else ""
  let n : ℤ := ⌊|q| * 10000 + 1 / 2⌋
  let ipart := n.toNat / 10000
  let fpart := n.toNat % 10000
  let fs := natToString fpart
  sign ++ natToString ipart ++ "." ++
    (String.mk (List.replicate (4 - fs.length) '0') ++ fs)

/-- The canonical establishment object: each field holds an arbitrary
JavaScript value.  A field equal to `undef` models both an absent
property and a property explicitly set to `undefined` (the code never
distinguishes the two).  `extra` carries any remaining properties,
preserved by the object spread in `normalizeEstablishmentShape`. -/
structure EstObj where
  id : JSVal := .undef
  name : JSVal := .undef
  address : JSVal := .undef
  city : JSVal := .undef
  source : JSVal := .undef
  lat : JSVal := .undef
  lng : JSVal := .undef
  filter : JSVal := .undef
  categories : JSVal := .undef
  createdAt : JSVal := .undef
  updatedAt : JSVal := .undef
  removedAt : JSVal := .undef
  extra : List (String × JSVal) := []

/-- `Number.isFinite` on a JavaScript value (no coercion). -/
def isFiniteVal : JSVal → Bool
  | .jnum (.num _) => true
  | _ => false

/-- `createDedupKey`: normalized name and city plus the coordinates
rounded to four decimals (or the literal `"undefined"`), joined with
`|`. -/
def createDedupKey (est : EstObj) : String :=
  let latKey := match est.lat with
    | .jnum (.num q) => toFixed4 q
    | _ => "undefined"
  let lngKey := match est.lng with
    | .jnum (.num q) => toFixed4 q
    | _ => "undefined"
  normalizeComparableString est.name ++ "|" ++
    normalizeComparableString est.city ++ "|" ++ latKey ++ "|" ++ lngKey

/-- `normalizeEstablishmentShape`: parse the coordinates (number kept,
anything else stringified and run through `parseFloat`; non-finite ⇒
`undefined`), normalize `filter` and `categories` into arrays, sanitize
the text fields with fallback to the raw value, and spread the rest of
the object unchanged. -/
def normalizeEstablishmentShape (est : EstObj) : EstObj :=
  let filters := toNumberArray est.filter
  let categories :=
    toStringArray (if est.categories.nullish then .jarr [] else est.categories)
  let latCandidate :=
    match est.lat with
    | .jnum n => n
    | v => parseFloatJS (jsToString (if v.nullish then .jstr "" else v))
  let lngCandidate :=
    match est.lng with
    | .jnum n => n
    | v => parseFloatJS (jsToString (if v.nullish then .jstr "" else v))
  let lat : JSVal := match latCandidate with
    | .num q => .jnum (.num q)
    | _ => .undef
  let lng : JSVal := match lngCandidate with
    | .num q => .jnum (.num q)
    | _ => .undef
  { est with
    name :=
      match sanitizeText est.name with
      | some s => .jstr s
      | none =>
        match est.name with
        | .jnum n => .jstr (jsNumToString n)
        | v => v
    address :=
      match sanitizeText est.address with
      | some s => .jstr s
      | none => est.address
    city :=
      match sanitizeText est.city with
      | some s => .jstr s
      | none => est.city
    source :=
      match sanitizeText est.source with
      | some s => .jstr s
      | none => est.source
    lat := lat
    lng := lng
    filter := .jarr (filters.map (fun q => .jnum (.num q)))
    categories := .jarr (categories.map .jstr) }

/-- `shouldMergeEstablishments`: same source and name (both after
comparable-normalization), city and address equal or one side missing,
and both coordinate pairs within the tolerance. -/
def shouldMergeEstablishments (existing incoming : EstObj) : Bool :=
  let sameSource :=
    normalizeComparableString existing.source == normalizeComparableString incoming.source
  if !sameSource then false
  else
    let sameName :=
      normalizeComparableString existing.name == normalizeComparableString incoming.name
    if !sameName then false
    else
      let sameCity :=
        normalizeComparableString existing.city == normalizeComparableString incoming.city
      let cityEquivalent := sameCity || !existing.city.truthy || !incoming.city.truthy
      let sameAddress :=
        normalizeComparableString existing.address == normalizeComparableString incoming.address
      let addressEquivalent :=
        sameAddress || !existing.address.truthy || !incoming.address.truthy
      let latClose := areNumbersClose existing.lat incoming.lat
      let lngClose := areNumbersClose existing.lng incoming.lng
      cityEquivalent && addressEquivalent && latClose && lngClose

/-- `ToPrimitive` with no particular hint: arrays and objects go to
their string form, primitives are unchanged. -/
def jsToPrimitive : JSVal → JSVal
  | .jarr xs => .jstr (jsArrToString xs)
  | .jobj _ => .jstr "[object Object]"
  | v => v

/-- Numeric strict greater-than on JavaScript numbers (`NaN` compares
false against everything). -/
def numGT : JSNum → JSNum → Bool
  | .nan, _ => false
  | _, .nan => false
  | .posInf, .posInf => false
  | .posInf, _ => true
  | .negInf, _ => false
  | .num _, .posInf => false
  | .num x, .num y => x > y
  | .num _, .negInf => true

/-- The JavaScript relational operator `a > b`: after `ToPrimitive`,
two strings compare lexicographically, otherwise both operands are
coerced with `ToNumber`. -/
def jsGT (a b : JSVal) : Bool :=
  match jsToPrimitive a, jsToPrimitive b with
  | .jstr x, .jstr y => decide (y < x)
  | pa, pb => numGT (jsToNumber pa) (jsToNumber pb)

/-- The elements of a normalized `filter` array (an array of finite
numbers by construction; anything else contributes nothing). -/
def numListOf : JSVal → List ℚ
  | .jarr xs =>
    xs.filterMap (fun v =>
      match v with
      | .jnum (.num q) => some q
      | _ => none)
  | _ => []

/-- The elements of a normalized `categories` array (an array of
strings by construction; non-string elements are stringified). -/
def strListOf : JSVal → List String
  | .jarr xs =>
    xs.map (fun v =>
      match v with
      | .jstr s => s
      | v => jsToString v)
  | _ => []

/-- `mergeEstablishment`, with the in-place mutation of `existing`
modelled by returning the updated record: union the filter and category
sets, overwrite `name` with a truthy incoming name, fill blank
`address`/`city`/`source` and non-finite `lat`/`lng` from the incoming
record, and advance `updatedAt` to the later timestamp. -/
def mergeEstablishment (existing incoming : EstObj) : EstObj :=
  let incomingNormalized := normalizeEstablishmentShape incoming
  let mergedFilters :=
    uniqueNumbers (toNumberArray existing.filter ++ numListOf incomingNormalized.filter)
  let mergedCategories :=
    uniqueStrings (toStringArray existing.categories ++ strListOf incomingNormalized.categories)
  let e := { existing with
    filter := .jarr (mergedFilters.map (fun q => .jnum (.num q)))
    categories := .jarr (mergedCategories.map .jstr) }
  let e := if incomingNormalized.name.truthy then { e with name := incomingNormalized.name } else e
  let e := if !e.address.truthy && incomingNormalized.address.truthy then
      { e with address := incomingNormalized.address } else e
  let e := if !e.city.truthy && incomingNormalized.city.truthy then
      { e with city := incomingNormalized.city } else e
  let e := if !e.source.truthy && incomingNormalized.source.truthy then
      { e with source := incomingNormalized.source } else e
  let e := if !isFiniteVal e.lat && isFiniteVal incomingNormalized.lat then
      { e with lat := incomingNormalized.lat } else e
  let e := if !isFiniteVal e.lng && isFiniteVal incomingNormalized.lng then
      { e with lng := incomingNormalized.lng } else e
  if incomingNormalized.updatedAt.truthy &&
      (!e.updatedAt.truthy || jsGT incomingNormalized.updatedAt e.updatedAt) then
    { e with updatedAt := incomingNormalized.updatedAt }
  else e

mutual

/-- `JSON.parse(JSON.stringify(v))` on a value in property position:
non-finite numbers become `null`, `undefined` array elements become
`null`, `undefined`-valued object properties are dropped. -/
def cloneVal : JSVal → JSVal
  | .jnum (.num q) => .jnum (.num q)
  | .jnum _ => .jnull
  | .jarr xs => .jarr (cloneArr xs)
  | .jobj fs => .jobj (cloneFields fs)
  | v => v
termination_by structural v => v

/-- JSON round-trip of the elements of an array. -/
def cloneArr : List JSVal → List JSVal
  | [] => []
  | .undef :: xs => .jnull :: cloneArr xs
  | x :: xs => cloneVal x :: cloneArr xs
termination_by structural l => l

/-- JSON round-trip of an object's properties. -/
def cloneFields : List (String × JSVal) → List (String × JSVal)
  | [] => []
  | (_, .undef) :: fs => cloneFields fs
  | (k, v) :: fs => (k, cloneVal v) :: cloneFields fs
termination_by structural l => l

end

/-- JSON round-trip of one top-level property of an establishment: an
absent/`undefined` property stays absent (modelled as `undef`). -/
def cloneField : JSVal → JSVal
  | .undef => .undef
  | v => cloneVal v

/-- `cloneEstablishment`: a deep JSON clone of the object.  (The
`est ? ... : est` nullish passthrough in the source cannot arise here
because `EstObj` only models non-null objects.) -/
def cloneEstablishment (e : EstObj) : EstObj :=
  { id := cloneField e.id
    name := cloneField e.name
    address := cloneField e.address
    city := cloneField e.city
    source := cloneField e.source
    lat := cloneField e.lat
    lng := cloneField e.lng
    filter := cloneField e.filter
    categories := cloneField e.categories
    createdAt := cloneField e.createdAt
    updatedAt := cloneField e.updatedAt
    removedAt := cloneField e.removedAt
    extra := cloneFields e.extra }

/-- `areStringArraysEqual`: equal length and equal after sorting (the
default JavaScript sort on strings is lexicographic). -/
def areStringArraysEqual (a b : List String) : Bool :=
  if a.length ≠ b.length then false
  else insertionSort (fun x y => x ≤ y) a == insertionSort (fun x y => x ≤ y) b

/-- `areNumberArraysEqual`: equal length and equal after numeric
sorting. -/
def areNumberArraysEqual (a b : List ℚ) : Bool :=
  if a.length ≠ b.length then false
  else insertionSort (fun x y => x ≤ y) a == insertionSort (fun x y => x ≤ y) b

/-- `sanitizeChangeValue` inside `collectModificationChanges`:
`undefined` becomes `null`, arrays map `undefined` elements to
`null`. -/
def sanitizeChangeValue : JSVal → JSVal
  | .jarr xs =>
    .jarr (xs.map (fun v =>
      match v with
      | .undef => .jnull
      | v => v))
  | .undef => .jnull
  | v => v

/-- One recorded field-level change. -/
structure ModChange where
  field : String
  before : JSVal
  after : JSVal

/-- `collectModificationChanges`: normalize both snapshots and record a
change for each tracked field that differs (strict inequality for the
text fields, tolerance comparison for the coordinates, set equality for
`categories` and `filter`). -/
def collectModificationChanges (previous next : EstObj) : List ModChange :=
  let o := normalizeEstablishmentShape previous
  let n := normalizeEstablishmentShape next
  let push (changes : List ModChange) (f : String) (b a : JSVal) : List ModChange :=
    changes ++ [⟨f, sanitizeChangeValue b, sanitizeChangeValue a⟩]
  let changes : List ModChange := []
  let changes := if !jsStrictEq o.name n.name then push changes "name" o.name n.name else changes
  let changes :=
    if !jsStrictEq o.address n.address then push changes "address" o.address n.address else changes
  let changes := if !jsStrictEq o.city n.city then push changes "city" o.city n.city else changes
  let changes :=
    if !jsStrictEq o.source n.source then push changes "source" o.source n.source else changes
  let changes := if !areNumbersClose o.lat n.lat then push changes "lat" o.lat n.lat else changes
  let changes := if !areNumbersClose o.lng n.lng then push changes "lng" o.lng n.lng else changes
  let changes :=
    if !areStringArraysEqual (strListOf o.categories) (strListOf n.categories) then
      push changes "categories"
        (if o.categories matches .jarr _ then o.categories else .jarr [])
        (if n.categories matches .jarr _ then n.categories else .jarr [])
    else changes
  let changes :=
    if !areNumberArraysEqual (numListOf o.filter) (numListOf n.filter) then
      push changes "filter"
        (if o.filter matches .jarr _ then o.filter else .jarr [])
        (if n.filter matches .jarr _ then n.filter else .jarr [])
    else changes
  changes

/-- Property read on an object modelled as an association list: the
last binding wins (JavaScript object literals), absent ⇒ `undefined`. -/
def lookupLastD (fs : List (String × JSVal)) (k : String) : JSVal :=
  fs.foldl (fun acc p => if p.1 == k then p.2 else acc) (.undef)

/-- Property read `v.k` ignoring the throw on nullish receivers:
objects look up the field, any other non-nullish value yields
`undefined` (none of the accessed names is a built-in property). -/
def getFieldD (v : JSVal) (k : String) : JSVal :=
  match v with
  | .jobj fs => lookupLastD fs k
  | _ => (.undef)

/-- Property read `v.k` with JavaScript semantics: a `TypeError` (the
single modelled exception) on a nullish receiver. -/
def getPropE (v : JSVal) (k : String) : Except Unit JSVal :=
  if v.nullish then .error () else .ok (getFieldD v k)

/-- `v?.trim()`: `undefined` for a nullish receiver, the trimmed string
for a string, and a `TypeError` for any other value (which has no
`trim` method). -/
def optTrimE (v : JSVal) : Except Unit JSVal :=
  match v with
  | .undef => .ok .undef
  | .jnull => .ok .undef
  | .jstr s => .ok (.jstr (jsTrim s))
  | _ => .error ()

/-- `x || y` for the `e.zip || ''` pattern. -/
def orEmptyStr (v : JSVal) : JSVal :=
  if v.truthy then v else .jstr ""

/-- `normalizeAchahada`: build the pre-canonical entity from a raw
Achahada record; property accesses throw on a nullish record, and
`e.store?.trim()` throws when `store` is a non-string non-nullish
value. -/
def normalizeAchahada (e : JSVal) (category : String) (filt : JSNum)
    (updatedAt : String) : Except Unit EstObj := do
  let idv ← getPropE e "id"
  let storev ← getPropE e "store"
  let namev ← optTrimE storev
  let latv ← getPropE e "lat"
  let lngv ← getPropE e "lng"
  let addrv ← getPropE e "address"
  let zipv ← getPropE e "zip"
  let cityv ← getPropE e "city"
  return {
    id := .jstr ("ach-" ++ jsToString idv)
    name := namev
    lat := .jnum (parseFloatJS (jsToString latv))
    lng := .jnum (parseFloatJS (jsToString lngv))
    address := .jstr (jsTrim (jsToString addrv ++ ", " ++
      jsToString (orEmptyStr zipv) ++ " " ++ jsToString (orEmptyStr cityv)))
    city := cityv
    source := .jstr "Achahada"
    categories := .jarr (if category ≠ "" then [.jstr category] else [])
    filter := .jarr (if filt.isFiniteB then [.jnum filt] else [])
    updatedAt := .jstr updatedAt }

/-- `normalizeAvs`: build the pre-canonical entity from a raw AVS
record; same failure behaviour as `normalizeAchahada`, with the name
taken from `name` and coordinates from `latitude`/`longitude`. -/
def normalizeAvs (e : JSVal) (category : String) (filt : JSNum)
    (updatedAt : String) : Except Unit EstObj := do
  let idv ← getPropE e "id"
  let rawNamev ← getPropE e "name"
  let namev ← optTrimE rawNamev
  let latv ← getPropE e "latitude"
  let lngv ← getPropE e "longitude"
  let addrv ← getPropE e "address"
  let zipv ← getPropE e "zipCode"
  let cityv ← getPropE e "city"
  return {
    id := .jstr ("avs-" ++ jsToString idv)
    name := namev
    lat := .jnum (parseFloatJS (jsToString latv))
    lng := .jnum (parseFloatJS (jsToString lngv))
    address := .jstr (jsTrim (jsToString addrv ++ ", " ++
      jsToString (orEmptyStr zipv) ++ " " ++ jsToString (orEmptyStr cityv)))
    city := cityv
    source := .jstr "AVS"
    categories := .jarr (if category ≠ "" then [.jstr category] else [])
    filter := .jarr (if filt.isFiniteB then [.jnum filt] else [])
    updatedAt := .jstr updatedAt }

/-!  The changelog differ mutates the entities of `current` in place.
To make that mutation observable the differ is embedded over an
explicit store: the two input arrays are lists of references (indices)
into a store of objects, every property read goes through the store,
and every property write updates it. -/

/-- The object store. -/
abbrev Store := List EstObj

/-- Dereference (out-of-range reads yield an empty object; the pure
wrapper below only produces in-range references). -/
def readObj (store : Store) (r : Nat) : EstObj := store.getD r {}

/-- Update the object a reference points to. -/
def writeObj (store : Store) (r : Nat) (v : EstObj) : Store := store.set r v

/-- Membership in a JavaScript `Set` (SameValueZero keys). -/
def setHas (l : List JSVal) (v : JSVal) : Bool := l.any (fun x => svz x v)

/-- `Set.prototype.add`. -/
def setAdd (l : List JSVal) (v : JSVal) : List JSVal :=
  if setHas l v then l else l ++ [v]

/-- The `oldById` map of `computeChangelogEntries`: previous entries
with a truthy `id`, keyed by the `id` captured at construction time. -/
def buildOldById (store : Store) (previousRefs : List Nat) : List (JSVal × Nat) :=
  previousRefs.filterMap (fun r =>
    let e := readObj store r
    if e.id.truthy then some (e.id, r) else none)

/-- `Map.prototype.get` for a map built from a pair list: the last
pair with a matching key wins (as in the `Map` constructor). -/
def mapLookupLast (pairs : List (JSVal × Nat)) (key : JSVal) : Option Nat :=
  pairs.foldl (fun acc p => if svz p.1 key then some p.2 else acc) none

/-- A `modified` changelog entry. -/
structure ModEntry where
  id : JSVal
  before : EstObj
  after : EstObj
  changes : List ModChange

/-- The result record of `computeChangelogEntries`. -/
structure ChangelogComputationResult where
  added : List EstObj
  removed : List EstObj
  modified : List ModEntry

/-- Intermediate state of the loop over `current`. -/
structure DiffState where
  store : Store
  seenIds : List JSVal
  added : List EstObj
  modified : List ModEntry

/-- The store writes of one iteration of the loop over `current` in
`computeChangelogEntries`: stamp `updatedAt`/`removedAt`, then settle
`createdAt` (inherit a truthy previous `createdAt`, else default a
falsy one to the sync timestamp).  Every object read goes through the
store at its source-code program point. -/
def diffStepStore (oldById : List (JSVal × Nat)) (syncTimestamp : String)
    (store : Store) (r : Nat) : Store :=
  let entryId := (readObj store r).id
  let earlierRef := if entryId.truthy then mapLookupLast oldById entryId else none
  let store1 := writeObj store r
    { readObj store r with updatedAt := .jstr syncTimestamp, removedAt := .jnull }
  match earlierRef with
  | some er =>
    if (readObj store1 er).createdAt.truthy then
      writeObj store1 r { readObj store1 r with createdAt := (readObj store1 er).createdAt }
    else if !(readObj store1 r).createdAt.truthy then
      writeObj store1 r { readObj store1 r with createdAt := .jstr syncTimestamp }
    else store1
  | none =>
    if !(readObj store1 r).createdAt.truthy then
      writeObj store1 r { readObj store1 r with createdAt := .jstr syncTimestamp }
    else store1

/-- One iteration of the loop over `current`: perform the lifecycle
writes, record the id as seen, and classify the entry as added,
modified or unchanged. -/
def diffStep (oldById : List (JSVal × Nat)) (syncTimestamp : String)
    (st : DiffState) (r : Nat) : DiffState :=
  let entryId := (readObj st.store r).id
  let earlierRef := if entryId.truthy then mapLookupLast oldById entryId else none
  let store := diffStepStore oldById syncTimestamp st.store r
  let seenIds := if entryId.truthy then setAdd st.seenIds entryId else st.seenIds
  match earlierRef with
  | none =>
    { store := store, seenIds := seenIds
      added := st.added ++ [cloneEstablishment (readObj store r)]
      modified := st.modified }
  | some er =>
    let changes := collectModificationChanges (readObj store er) (readObj store r)
    if changes.length > 0 then
      { store := store, seenIds := seenIds, added := st.added
        modified := st.modified ++
          [⟨entryId, cloneEstablishment (readObj store er),
            cloneEstablishment (readObj store r), changes⟩] }
    else
      { store := store, seenIds := seenIds, added := st.added, modified := st.modified }

/-- One iteration of the removal loop: a previous entry with a truthy
id that was not seen among `current` is cloned, stamped and appended to
`removed`.  No store writes happen here. -/
def removalStep (seenIds : List JSVal) (syncTimestamp : String) (store : Store)
    (removed : List EstObj) (r : Nat) : List EstObj :=
  let p := readObj store r
  if !p.id.truthy || setHas seenIds p.id then removed
  else
    let removedEntry := cloneEstablishment p
    removed ++ [{ removedEntry with
      removedAt := .jstr syncTimestamp, updatedAt := .jstr syncTimestamp }]

/-- `computeChangelogEntries` over the store: returns the final store
together with the `{added, removed, modified}` result. -/
def computeChangelogEntries (store : Store) (currentRefs previousRefs : List Nat)
    (syncTimestamp : String) : Store × ChangelogComputationResult :=
  let oldById := buildOldById store previousRefs
  let st := currentRefs.foldl (diffStep oldById syncTimestamp)
    ⟨store, [], [], []⟩
  let removed := previousRefs.foldl (removalStep st.seenIds syncTimestamp st.store) []
  (st.store, ⟨st.added, removed, st.modified⟩)

/-- `computeChangelogEntries` on value lists: lay `current` and
`previous` out in a store at disjoint references (fresh, unaliased
objects, as produced by the adapters and the persistence reads), run
the differ, and return the stamped `current` list with the result. -/
def computeChangelogPure (current previous : List EstObj) (syncTimestamp : String) :
    List EstObj × ChangelogComputationResult :=
  let store : Store := current ++ previous
  let currentRefs := List.range current.length
  let previousRefs := (List.range previous.length).map (· + current.length)
  let out := computeChangelogEntries store currentRefs previousRefs syncTimestamp
  (out.1.take current.length, out.2)

/-!  The dedup/merge loop of `refreshCache` (src/unnamed/part_003 and
src/app/api/data/route.ts). -/

/-- `Map.prototype.get` on the string-keyed accumulator (keys are
unique by construction, so first match suffices). -/
def mapGet (m : List (String × EstObj)) (k : String) : Option EstObj :=
  match m with
  | [] => none
  | (k', v) :: rest => if k' = k then some v else mapGet rest k

/-- `Map.prototype.set`: overwrite in place, or append a new key. -/
def mapSet (m : List (String × EstObj)) (k : String) (v : EstObj) :
    List (String × EstObj) :=
  match m with
  | [] => [(k, v)]
  | (k', v') :: rest => if k' = k then (k, v) :: rest else (k', v') :: mapSet rest k v

/-- Accumulator state of the dedup loop. -/
structure DedupState where
  seen : List (String × EstObj)
  duplicates : List (EstObj × EstObj)

/-- One iteration of the dedup loop: normalize the raw entry, look the
identity key up; merge when compatible, record a duplicate pair of deep
clones when incompatible, and otherwise install the entry as the
canonical one for its key. -/
def dedupStep (st : DedupState) (rawEntry : EstObj) : DedupState :=
  let normalizedEntry := normalizeEstablishmentShape rawEntry
  let key := createDedupKey normalizedEntry
  match mapGet st.seen key with
  | some existing =>
    if shouldMergeEstablishments existing normalizedEntry then
      { st with seen := mapSet st.seen key (mergeEstablishment existing normalizedEntry) }
    else
      { st with duplicates := st.duplicates ++
          [(cloneEstablishment existing, cloneEstablishment normalizedEntry)] }
  | none => { st with seen := mapSet st.seen key normalizedEntry }

/-- The whole dedup loop: the deduplicated entities (the accumulator
values in insertion order) and the duplicate-pair report. -/
def runDedup (normalized : List EstObj) : List EstObj × List (EstObj × EstObj) :=
  let st := normalized.foldl dedupStep ⟨[], []⟩
  (st.seen.map (·.2), st.duplicates)

/-!  The tombstone filter (src/unnamed/part_003). -/

/-- `toArrayLike`: arrays as themselves, other objects via
`Object.values`, everything else empty. -/
def toArrayLike : JSVal → List JSVal
  | .jarr xs => xs
  | .jobj fs => fs.map (·.2)
  | _ => []

/-- `extractEntryIds`: the trimmed, non-blank string ids of the
object-typed entries of an array-like value. -/
def extractEntryIds (value : JSVal) : List String :=
  (toArrayLike value).filterMap (fun entry =>
    let isObject := match entry with
      | .jarr _ => true
      | .jobj _ => true
      | _ => false
    if !isObject then none
    else
      match getFieldD entry "id" with
      | .jstr s =>
        let trimmed := jsTrim s
        if trimmed.length > 0 then some trimmed else none
      | _ => none)

/-- A persisted changelog record as read back from the store (only the
fields the tombstone baseline consults). -/
structure ChangelogDoc where
  status : JSVal := .undef
  added : JSVal := .undef
  removed : JSVal := (.undef)

/-- The status the code attributes to a changelog record: the `status`
field when it is a string, `"completed"` otherwise. -/
def statusOf (d : ChangelogDoc) : String :=
  match d.status with
  | .jstr s => s
  | _ => "completed"

/-- Add a string to a set-as-list. -/
def setAddStr (l : List String) (x : String) : List String :=
  if x ∈ l then l else l ++ [x]

/-- Delete a string from a set-as-list. -/
def setDeleteStr (l : List String) (x : String) : List String :=
  l.filter (fun y => y ≠ x)

/-- Replay of one changelog record onto the running removed-id set:
records not treated as `"completed"` are skipped; otherwise the
record's added ids are deleted first and its removed ids inserted
second. -/
def changelogStep (acc : List String) (d : ChangelogDoc) : List String :=
  if statusOf d ≠ "completed" then acc
  else
    let acc := (extractEntryIds d.added).foldl setDeleteStr acc
    (extractEntryIds d.removed).foldl setAddStr acc

/-- `getCurrentlyRemovedIds`: replay the changelog (given in ascending
date order, as the Firestore query returns it) from an empty set. -/
def getCurrentlyRemovedIds (docs : List ChangelogDoc) : List String :=
  docs.foldl changelogStep []

/-- One step of the `freshRemoved` filter in `refreshCache`: entries
whose id is not a string or is blank after trimming always pass;
entries whose trimmed id is in the historical baseline or was already
kept this cycle are dropped; otherwise the id is recorded and the entry
kept. -/
def freshRemovedStep (currentRemovedIds : List String)
    (st : List String × List EstObj) (entry : EstObj) : List String × List EstObj :=
  let idOpt : Option String :=
    match entry.id with
    | .jstr s => some (jsTrim s)
    | _ => none
  match idOpt with
  | none => (st.1, st.2 ++ [entry])
  | some t =>
    if t = "" then (st.1, st.2 ++ [entry])
    else if t ∈ currentRemovedIds ∨ t ∈ st.1 then st
    else (st.1 ++ [t], st.2 ++ [entry])

/-- The `freshRemoved` computation: filter the freshly computed
`removed` list against the historical baseline, deduplicating ids
within the cycle. -/
def filterTombstonedRemovals (currentRemovedIds : List String)
    (removed : List EstObj) : List EstObj :=
  (removed.foldl (freshRemovedStep currentRemovedIds) ([], [])).2

/-!  ## Theorems -/

/-- Claim C8: for every input object, `normalizeEstablishmentShape`
returns an entity whose `lat` and `lng` are each either a finite number
or `undefined` — never `NaN` and never a default of `0` — and a missing
(nullish) coordinate always comes out as `undefined`, so it stays
distinguishable from the coordinate pair `0,0`. -/
theorem normalizeShape_lat_lng_finite_or_undefined (e : EstObj) :
    ((normalizeEstablishmentShape e).lat = .undef ∨
      ∃ q : ℚ, (normalizeEstablishmentShape e).lat = .jnum (.num q)) ∧
    ((normalizeEstablishmentShape e).lng = .undef ∨
      ∃ q : ℚ, (normalizeEstablishmentShape e).lng = .jnum (.num q)) ∧
    (e.lat.nullish = true → (normalizeEstablishmentShape e).lat = .undef) ∧
    (e.lng.nullish = true → (normalizeEstablishmentShape e).lng = .undef) := by
  have hcand : ∀ c : JSNum,
      (match c with
        | JSNum.num q => JSVal.jnum (.num q)
        | _ => JSVal.undef) = JSVal.undef ∨
      ∃ q : ℚ,
        (match c with
          | JSNum.num q => JSVal.jnum (.num q)
          | _ => JSVal.undef) = JSVal.jnum (.num q) := by
    intro c
    cases c
    · exact Or.inr ⟨_, rfl⟩
    all_goals exact Or.inl rfl
  refine ⟨?_, ?_, ?_, ?_⟩
  · simp only [normalizeEstablishmentShape]
    exact hcand _
  · simp only [normalizeEstablishmentShape]
    exact hcand _
  · intro h
    cases hl : e.lat <;> rw [hl] at h <;> simp [JSVal.nullish] at h <;>
      simp only [normalizeEstablishmentShape, hl]
    · rfl
    · rfl
  · intro h
    cases hl : e.lng <;> rw [hl] at h <;> simp [JSVal.nullish] at h <;>
      simp only [normalizeEstablishmentShape, hl]
    · rfl
    · rfl

/-- Witness for C8 at a concrete input: a record with a numeric-string
latitude and a nullish longitude. -/
theorem normalizeShape_lat_lng_witness :
    (JSVal.jnull : JSVal).nullish = true ∧
    ((normalizeEstablishmentShape { lat := .jstr "48.85", lng := .jnull }).lat = .undef ∨
      ∃ q : ℚ,
        (normalizeEstablishmentShape { lat := .jstr "48.85", lng := .jnull }).lat =
          .jnum (.num q)) ∧
    (normalizeEstablishmentShape { lat := .jstr "48.85", lng := .jnull }).lng = .undef := by
  refine ⟨rfl, ?_, ?_⟩
  · exact (normalizeShape_lat_lng_finite_or_undefined { lat := .jstr "48.85", lng := .jnull }).1
  · exact (normalizeShape_lat_lng_finite_or_undefined
      { lat := .jstr "48.85", lng := .jnull }).2.2.2 rfl

/-- Claim C5: in the dedup loop, whenever the incoming normalized
entity shares an identity key with an accumulator entry but
`shouldMergeEstablishments` returns `false`, the step appends an
`(original, duplicate)` pair of deep clones of both sides to the
duplicates list and leaves the accumulator map (`seen`) exactly
unchanged — so the incoming entity never enters the deduplicated
output and the first-seen entity for the key stays canonical. -/
theorem dedupStep_incompatible_records_duplicate (st : DedupState)
    (rawEntry existing : EstObj)
    (hfound :
      mapGet st.seen (createDedupKey (normalizeEstablishmentShape rawEntry)) = some existing)
    (hincompat :
      shouldMergeEstablishments existing (normalizeEstablishmentShape rawEntry) = false) :
    dedupStep st rawEntry =
      { seen := st.seen
        duplicates := st.duplicates ++
          [(cloneEstablishment existing,
            cloneEstablishment (normalizeEstablishmentShape rawEntry))] } := by
  unfold dedupStep
  simp only [hfound, hincompat, Bool.false_eq_true, if_false]

/-- A first raw record for the C5 witness (source `"AVS"`). -/
def c5FirstRaw : EstObj :=
  { id := .jstr "avs-1", name := .jstr "Le Gourmet", city := .jstr "Paris"
    lat := .jnum (.num 10), lng := .jnum (.num 20), source := .jstr "AVS" }

/-- A colliding raw record for the C5 witness: same identity key,
different source. -/
def c5SecondRaw : EstObj :=
  { id := .jstr "ach-7", name := .jstr "Le Gourmet", city := .jstr "Paris"
    lat := .jnum (.num 10), lng := .jnum (.num 20), source := .jstr "Achahada" }

/-- Witness for C5: after inserting the first record, processing the
incompatible second record only appends the clone pair. -/
theorem dedupStep_incompatible_witness :
    dedupStep (dedupStep ⟨[], []⟩ c5FirstRaw) c5SecondRaw =
      { seen := (dedupStep ⟨[], []⟩ c5FirstRaw).seen
        duplicates := (dedupStep ⟨[], []⟩ c5FirstRaw).duplicates ++
          [(cloneEstablishment (normalizeEstablishmentShape c5FirstRaw),
            cloneEstablishment (normalizeEstablishmentShape c5SecondRaw))] } :=
  dedupStep_incompatible_records_duplicate (dedupStep ⟨[], []⟩ c5FirstRaw)
    c5SecondRaw (normalizeEstablishmentShape c5FirstRaw)
    (by with_unfolding_all rfl) (by with_unfolding_all rfl)

/-- A changelog record with no `status` field that removes id `"x"`. -/
def c4MissingStatusDoc : ChangelogDoc :=
  { removed := .jarr [.jobj [("id", .jstr "x")]] }

/-- Counterexample to claim C4 as stated: a historical changelog record
whose status is **not** the string `"completed"` (here the field is
absent) nevertheless contributes its removed ids to the tombstone
baseline — the code defaults a missing or non-string status to
`"completed"` and processes the record. -/
theorem getCurrentlyRemovedIds_missing_status_not_skipped :
    c4MissingStatusDoc.status ≠ .jstr "completed" ∧
    getCurrentlyRemovedIds [c4MissingStatusDoc] = ["x"] := by
  constructor
  · intro h
    exact JSVal.noConfusion h
  · with_unfolding_all rfl

/-- Claim C4 (amended): when building the tombstone baseline, every
historical changelog record whose `status` field is a **string other
than `"completed"`** is skipped entirely — it contributes neither its
added ids nor its removed ids to the running removed-id set; a record
with a missing or non-string status is instead treated as completed and
processed. -/
theorem changelogStep_skips_noncompleted_string_status (acc : List String)
    (d : ChangelogDoc) (s : String) (hs : d.status = .jstr s)
    (hne : s ≠ "completed") : changelogStep acc d = acc := by
  unfold changelogStep statusOf
  rw [hs]
  simp [hne]

/-- Witness for the amended C4 at a `"pending"` record that both adds
and removes ids. -/
theorem changelogStep_skips_pending_witness :
    changelogStep ["a"]
      { status := .jstr "pending"
        added := .jarr [.jobj [("id", .jstr "a")]]
        removed := .jarr [.jobj [("id", .jstr "b")]] } = ["a"] :=
  changelogStep_skips_noncompleted_string_status ["a"]
    { status := .jstr "pending"
      added := .jarr [.jobj [("id", .jstr "a")]]
      removed := .jarr [.jobj [("id", .jstr "b")]] }
    "pending" rfl (by decide)

/-- A freshly computed removed entry whose id is missing, not a
string, or blank after trimming — exactly the entries the
`freshRemoved` filter keeps unconditionally. -/
def blankRemovedId (e : EstObj) : Bool :=
  match e.id with
  | .jstr s => jsTrim s == ""
  | _ => true

/-- Claim C10: the tombstone filter unconditionally keeps every
freshly-computed removed entry whose id is missing, not a string, or
blank after trimming: restricted to such entries, the filter output
equals the input (same entries, same multiplicities, same order), for
every historical baseline — so these entries are never suppressed by
the baseline and are exempt from within-cycle duplicate removal. -/
theorem filterTombstoned_keeps_blank_id_entries (ids : List String)
    (removed : List EstObj) :
    (filterTombstonedRemovals ids removed).filter blankRemovedId =
      removed.filter blankRemovedId := by
  have aux : ∀ (l : List EstObj) (st : List String × List EstObj),
      ((l.foldl (freshRemovedStep ids) st).2).filter blankRemovedId =
        st.2.filter blankRemovedId ++ l.filter blankRemovedId := by
    intro l
    induction l with
    | nil => intro st; simp
    | cons e rest ih =>
      intro st
      rw [List.foldl_cons, ih]
      cases he : e.id with
      | jstr s =>
        by_cases ht : jsTrim s = ""
        · simp [freshRemovedStep, he, ht, blankRemovedId, List.filter_append]
        · by_cases hmem : jsTrim s ∈ ids ∨ jsTrim s ∈ st.1
          · simp [freshRemovedStep, he, ht, hmem, blankRemovedId, List.filter_append]
          · simp [freshRemovedStep, he, ht, hmem, blankRemovedId, List.filter_append]
      | undef => simp [freshRemovedStep, he, blankRemovedId, List.filter_append]
      | jnull => simp [freshRemovedStep, he, blankRemovedId, List.filter_append]
      | jbool b => simp [freshRemovedStep, he, blankRemovedId, List.filter_append]
      | jnum n => simp [freshRemovedStep, he, blankRemovedId, List.filter_append]
      | jarr xs => simp [freshRemovedStep, he, blankRemovedId, List.filter_append]
      | jobj fs => simp [freshRemovedStep, he, blankRemovedId, List.filter_append]
  unfold filterTombstonedRemovals
  rw [aux removed ([], [])]
  simp

/-- Adding an element to a set-as-list preserves membership. -/
theorem mem_setAddStr_of_mem {x : String} (y : String) {acc : List String}
    (h : x ∈ acc) : x ∈ setAddStr acc y := by
  unfold setAddStr
  split
  · exact h
  · exact List.mem_append_left _ h

/-- An added element is a member afterwards. -/
theorem mem_setAddStr_self (x : String) (acc : List String) :
    x ∈ setAddStr acc x := by
  unfold setAddStr
  split
  · assumption
  · exact List.mem_append_right _ (List.mem_singleton.mpr rfl)

/-- Folding additions over a list: anything already present or being
added ends up present. -/
theorem mem_foldl_setAddStr : ∀ (ys acc : List String) (x : String),
    x ∈ acc ∨ x ∈ ys → x ∈ ys.foldl setAddStr acc := by
  intro ys
  induction ys with
  | nil =>
    intro acc x h
    simpa using h.resolve_right (by simp)
  | cons y ys ih =>
    intro acc x h
    rw [List.foldl_cons]
    rcases h with h | h
    · exact ih _ x (Or.inl (mem_setAddStr_of_mem y h))
    · rcases List.mem_cons.mp h with rfl | h
      · exact ih _ x (Or.inl (mem_setAddStr_self x acc))
      · exact ih _ x (Or.inr h)

/-- Folding deletions over a list never removes an element that is not
among the deleted ones. -/
theorem mem_foldl_setDeleteStr : ∀ (ys acc : List String) (x : String),
    x ∈ acc → x ∉ ys → x ∈ ys.foldl setDeleteStr acc := by
  intro ys
  induction ys with
  | nil => intro acc x h _; simpa using h
  | cons y ys ih =>
    intro acc x h hn
    rw [List.foldl_cons]
    refine ih _ x ?_ (fun hx => hn (List.mem_cons_of_mem _ hx))
    unfold setDeleteStr
    rw [List.mem_filter]
    have hxy : x ≠ y := fun hxy => hn (hxy ▸ List.mem_cons_self x ys)
    exact ⟨h, by simpa using hxy⟩

/-- Every id produced by `extractEntryIds` is non-empty. -/
theorem extractEntryIds_ne_empty {X : String} {v : JSVal}
    (h : X ∈ extractEntryIds v) : X ≠ "" := by
  unfold extractEntryIds at h
  rw [List.mem_filterMap] at h
  obtain ⟨entry, _, he⟩ := h
  dsimp only at he
  split at he
  · exact absurd he (by simp)
  · split at he
    · split at he
      · rename_i trimmed hlen
        intro hX
        rw [Option.some_inj] at he
        rw [← he] at hX
        rw [hX] at hlen
        simp at hlen
      · exact absurd he (by simp)
    · exact absurd he (by simp)

/-- After a completed record removes `X`, and no later record that the
replay processes re-adds `X`, the id stays in the running set. -/
theorem mem_foldl_changelogStep : ∀ (post : List ChangelogDoc) (acc : List String)
    (X : String), X ∈ acc →
    (∀ d' ∈ post, statusOf d' = "completed" → X ∉ extractEntryIds d'.added) →
    X ∈ post.foldl changelogStep acc := by
  intro post
  induction post with
  | nil => intro acc X h _; simpa using h
  | cons d' post ih =>
    intro acc X h hlater
    rw [List.foldl_cons]
    refine ih _ X ?_ (fun d hd => hlater d (List.mem_cons_of_mem _ hd))
    unfold changelogStep
    split
    · exact h
    · rename_i hstatus
      rw [not_not] at hstatus
      refine mem_foldl_setAddStr _ _ X (Or.inl ?_)
      exact mem_foldl_setDeleteStr _ _ X h
        (hlater d' (List.mem_cons_self _ _) hstatus)

/-- The entry's id is a string trimming to `t`. -/
def trimmedIdIs (t : String) (e : EstObj) : Bool :=
  match e.id with
  | .jstr s => jsTrim s == t
  | _ => false

/-- Any id already in the baseline never survives the `freshRemoved`
filter: every kept entry with a string id trims to something else. -/
theorem filterTombstoned_drops_baseline_id (ids : List String)
    (removed : List EstObj) (X : String) (hX : X ∈ ids) (hne : X ≠ "") :
    ∀ entry ∈ filterTombstonedRemovals ids removed,
      ∀ s, entry.id = .jstr s → jsTrim s ≠ X := by
  have aux : ∀ (l : List EstObj) (st : List String × List EstObj),
      (∀ entry ∈ st.2, ∀ s, entry.id = .jstr s → jsTrim s ≠ X) →
      ∀ entry ∈ (l.foldl (freshRemovedStep ids) st).2,
        ∀ s, entry.id = .jstr s → jsTrim s ≠ X := by
    intro l
    induction l with
    | nil => intro st hinv; simpa using hinv
    | cons e rest ih =>
      intro st hinv
      rw [List.foldl_cons]
      apply ih
      intro entry hmem s hid
      cases he : e.id with
      | jstr s0 =>
        by_cases ht : jsTrim s0 = ""
        · simp only [freshRemovedStep, he, ht, if_pos rfl] at hmem
          rcases List.mem_append.mp hmem with h | h
          · exact hinv entry h s hid
          · rcases List.mem_singleton.mp h with rfl
            rw [he] at hid
            cases hid
            rw [ht]
            exact fun h => hne h.symm
        · by_cases hmem2 : jsTrim s0 ∈ ids ∨ jsTrim s0 ∈ st.1
          · simp only [freshRemovedStep, he, if_neg ht, if_pos hmem2] at hmem
            exact hinv entry hmem s hid
          · simp only [freshRemovedStep, he, if_neg ht, if_neg hmem2] at hmem
            rcases List.mem_append.mp hmem with h | h
            · exact hinv entry h s hid
            · rcases List.mem_singleton.mp h with rfl
              rw [he] at hid
              cases hid
              exact fun hEq => hmem2 (Or.inl (hEq ▸ hX))
      | undef =>
        simp only [freshRemovedStep, he] at hmem
        rcases List.mem_append.mp hmem with h | h
        · exact hinv entry h s hid
        · rcases List.mem_singleton.mp h with rfl
          rw [he] at hid
          cases hid
      | jnull =>
        simp only [freshRemovedStep, he] at hmem
        rcases List.mem_append.mp hmem with h | h
        · exact hinv entry h s hid
        · rcases List.mem_singleton.mp h with rfl
          rw [he] at hid
          cases hid
      | jbool b =>
        simp only [freshRemovedStep, he] at hmem
        rcases List.mem_append.mp hmem with h | h
        · exact hinv entry h s hid
        · rcases List.mem_singleton.mp h with rfl
          rw [he] at hid
          cases hid
      | jnum n =>
        simp only [freshRemovedStep, he] at hmem
        rcases List.mem_append.mp hmem with h | h
        · exact hinv entry h s hid
        · rcases List.mem_singleton.mp h with rfl
          rw [he] at hid
          cases hid
      | jarr xs =>
        simp only [freshRemovedStep, he] at hmem
        rcases List.mem_append.mp hmem with h | h
        · exact hinv entry h s hid
        · rcases List.mem_singleton.mp h with rfl
          rw [he] at hid
          cases hid
      | jobj fs =>
        simp only [freshRemovedStep, he] at hmem
        rcases List.mem_append.mp hmem with h | h
        · exact hinv entry h s hid
        · rcases List.mem_singleton.mp h with rfl
          rw [he] at hid
          cases hid
  intro entry hmem
  exact aux removed ([], []) (by simp) entry hmem

/-- Within one cycle the `freshRemoved` filter keeps at most one entry
per non-blank trimmed id. -/
theorem filterTombstoned_dedups_within_cycle (ids : List String)
    (removed : List EstObj) (t : String) (ht : t ≠ "") :
    (filterTombstonedRemovals ids removed).countP (trimmedIdIs t) ≤ 1 := by
  have aux : ∀ (l : List EstObj) (st : List String × List EstObj),
      st.2.countP (trimmedIdIs t) ≤ (if t ∈ st.1 then 1 else 0) →
      ((l.foldl (freshRemovedStep ids) st).2).countP (trimmedIdIs t) ≤
        (if t ∈ (l.foldl (freshRemovedStep ids) st).1 then 1 else 0) := by
    intro l
    induction l with
    | nil => intro st h; simpa using h
    | cons e rest ih =>
      intro st h
      rw [List.foldl_cons]
      apply ih
      cases he : e.id with
      | jstr s0 =>
        by_cases hblank : jsTrim s0 = ""
        · simp only [freshRemovedStep, he, hblank, ite_true, if_true]
          rw [List.countP_append]
          have hpe : trimmedIdIs t e = false := by
            simp only [trimmedIdIs, he, hblank]
            simpa using fun hEq => ht hEq.symm
          simpa [hpe] using h
        · by_cases hmem2 : jsTrim s0 ∈ ids ∨ jsTrim s0 ∈ st.1
          · simpa only [freshRemovedStep, he, if_neg hblank, if_pos hmem2] using h
          · simp only [freshRemovedStep, he, if_neg hblank, if_neg hmem2]
            rw [List.countP_append]
            by_cases hEq : jsTrim s0 = t
            · have hpe : trimmedIdIs t e = true := by
                simp [trimmedIdIs, he, hEq]
              have htn : t ∉ st.1 := fun hmem3 =>
                hmem2 (Or.inr (by rw [hEq]; exact hmem3))
              rw [if_neg htn] at h
              have hcnt : st.2.countP (trimmedIdIs t) = 0 := Nat.le_zero.mp h
              have : t ∈ st.1 ++ [jsTrim s0] :=
                List.mem_append_right _ (by simp [hEq])
              rw [if_pos this]
              simp [hcnt, hpe]
            · have hpe : trimmedIdIs t e = false := by
                simp only [trimmedIdIs, he]
                simpa using hEq
              have hiff : (t ∈ st.1 ++ [jsTrim s0]) ↔ t ∈ st.1 := by
                simp only [List.mem_append, List.mem_singleton]
                exact ⟨fun hc => hc.resolve_right (fun hc2 => hEq hc2.symm), Or.inl⟩
              by_cases hti : t ∈ st.1
              · rw [if_pos (hiff.mpr hti)]
                rw [if_pos hti] at h
                simpa [hpe] using h
              · rw [if_neg (fun hc => hti (hiff.mp hc))]
                rw [if_neg hti] at h
                simpa [hpe] using h
      | undef =>
        simp only [freshRemovedStep, he]
        rw [List.countP_append]
        have hpe : trimmedIdIs t e = false := by simp [trimmedIdIs, he]
        simpa [hpe] using h
      | jnull =>
        simp only [freshRemovedStep, he]
        rw [List.countP_append]
        have hpe : trimmedIdIs t e = false := by simp [trimmedIdIs, he]
        simpa [hpe] using h
      | jbool b =>
        simp only [freshRemovedStep, he]
        rw [List.countP_append]
        have hpe : trimmedIdIs t e = false := by simp [trimmedIdIs, he]
        simpa [hpe] using h
      | jnum n =>
        simp only [freshRemovedStep, he]
        rw [List.countP_append]
        have hpe : trimmedIdIs t e = false := by simp [trimmedIdIs, he]
        simpa [hpe] using h
      | jarr xs =>
        simp only [freshRemovedStep, he]
        rw [List.countP_append]
        have hpe : trimmedIdIs t e = false := by simp [trimmedIdIs, he]
        simpa [hpe] using h
      | jobj fs =>
        simp only [freshRemovedStep, he]
        rw [List.countP_append]
        have hpe : trimmedIdIs t e = false := by simp [trimmedIdIs, he]
        simpa [hpe] using h
  have hfin := aux removed ([], []) (by simp)
  unfold filterTombstonedRemovals
  refine le_trans hfin ?_
  split
  · exact le_refl 1
  · exact Nat.zero_le 1

/-- Claim C3: if the historical changelog contains a completed cycle
whose removed list contains id `X`, and no later cycle that the replay
treats as completed lists `X` among its added ids, then `X` is in the
tombstone baseline built by `getCurrentlyRemovedIds`, the
`freshRemoved` filter drops every entry whose id trims to `X`, and —
independently — an id occurring more than once in the current cycle's
own removed list is kept at most once. -/
theorem tombstone_suppresses_rereported_removal
    (docs pre post : List ChangelogDoc) (d : ChangelogDoc)
    (removed : List EstObj) (X : String)
    (hsplit : docs = pre ++ d :: post)
    (hd : statusOf d = "completed")
    (hX : X ∈ extractEntryIds d.removed)
    (hlater : ∀ d' ∈ post, statusOf d' = "completed" →
      X ∉ extractEntryIds d'.added) :
    X ∈ getCurrentlyRemovedIds docs ∧
    (∀ entry ∈ filterTombstonedRemovals (getCurrentlyRemovedIds docs) removed,
      ∀ s, entry.id = .jstr s → jsTrim s ≠ X) ∧
    (∀ t : String, t ≠ "" →
      (filterTombstonedRemovals (getCurrentlyRemovedIds docs) removed).countP
        (trimmedIdIs t) ≤ 1) := by
  have hbase : X ∈ getCurrentlyRemovedIds docs := by
    unfold getCurrentlyRemovedIds
    rw [hsplit, List.foldl_append, List.foldl_cons]
    refine mem_foldl_changelogStep post _ X ?_ hlater
    unfold changelogStep
    split
    · rename_i hcontra
      exact absurd hd hcontra
    · exact mem_foldl_setAddStr _ _ X (Or.inr hX)
  exact ⟨hbase,
    filterTombstoned_drops_baseline_id _ removed X hbase (extractEntryIds_ne_empty hX),
    fun t ht => filterTombstoned_dedups_within_cycle _ removed t ht⟩

/-- The completed historical cycle used by the C3 witness: it removed
id `"gone"`. -/
def c3CompletedDoc : ChangelogDoc :=
  { status := .jstr "completed"
    removed := .jarr [.jobj [("id", .jstr "gone")]] }

/-- The fresh removed list used by the C3 witness: two entries whose
ids trim to `"gone"` and two duplicate entries with id `"dup"`. -/
def c3FreshRemoved : List EstObj :=
  [{ id := .jstr "gone" }, { id := .jstr " gone " },
   { id := .jstr "dup" }, { id := .jstr "dup" }]

/-- Witness for C3 at a one-record changelog and a concrete fresh
removed list. -/
theorem tombstone_suppresses_rereported_removal_witness :
    "gone" ∈ getCurrentlyRemovedIds [c3CompletedDoc] ∧
    (∀ entry ∈ filterTombstonedRemovals (getCurrentlyRemovedIds [c3CompletedDoc])
        c3FreshRemoved,
      ∀ s, entry.id = .jstr s → jsTrim s ≠ "gone") ∧
    (∀ t : String, t ≠ "" →
      (filterTombstonedRemovals (getCurrentlyRemovedIds [c3CompletedDoc])
          c3FreshRemoved).countP (trimmedIdIs t) ≤ 1) :=
  tombstone_suppresses_rereported_removal [c3CompletedDoc] [] [] c3CompletedDoc
    c3FreshRemoved "gone" rfl rfl (by with_unfolding_all decide)
    (by intro d' hmem; exact absurd hmem (by simp))

/-- Counterexample to claim C9 as stated: the adapters do **not**
return an entity for every raw record value — a `null` record makes
the very first property access (`e.id`) throw a `TypeError`, and a
record whose `store` field is a non-string non-nullish value (here the
number `42`) makes `e.store?.trim()` throw. -/
theorem adapters_throw_on_null_or_nonstring_store :
    normalizeAchahada .jnull "Restaurant" (.num 29) "2024-01-01T00:00:00.000Z" =
      .error () ∧
    normalizeAvs .jnull "Boucherie" (.num 1) "2024-01-01T00:00:00.000Z" =
      .error () ∧
    normalizeAchahada (.jobj [("id", .jnum (.num 5)), ("store", .jnum (.num 42))])
      "Restaurant" (.num 29) "2024-01-01T00:00:00.000Z" = .error () := by
  refine ⟨?_, ?_, ?_⟩ <;> with_unfolding_all rfl

/-- The field `v` is a string or nullish — the receivers on which the
optional-chained `trim()` cannot throw. -/
def stringOrNullish (v : JSVal) : Prop :=
  v = .undef ∨ v = .jnull ∨ ∃ s, v = .jstr s

/-- The entity `normalizeAchahada` produces on a record it accepts
(`namev` is the result of `e.store?.trim()`). -/
def achahadaEntity (e : JSVal) (category : String) (filt : JSNum)
    (updatedAt : String) (namev : JSVal) : EstObj :=
  { id := .jstr ("ach-" ++ jsToString (getFieldD e "id"))
    name := namev
    lat := .jnum (parseFloatJS (jsToString (getFieldD e "lat")))
    lng := .jnum (parseFloatJS (jsToString (getFieldD e "lng")))
    address := .jstr (jsTrim (jsToString (getFieldD e "address") ++ ", " ++
      jsToString (orEmptyStr (getFieldD e "zip")) ++ " " ++
      jsToString (orEmptyStr (getFieldD e "city"))))
    city := getFieldD e "city"
    source := .jstr "Achahada"
    categories := .jarr (if category ≠ "" then [.jstr category] else [])
    filter := .jarr (if filt.isFiniteB then [.jnum filt] else [])
    updatedAt := .jstr updatedAt }

/-- The entity `normalizeAvs` produces on a record it accepts. -/
def avsEntity (e : JSVal) (category : String) (filt : JSNum)
    (updatedAt : String) (namev : JSVal) : EstObj :=
  { id := .jstr ("avs-" ++ jsToString (getFieldD e "id"))
    name := namev
    lat := .jnum (parseFloatJS (jsToString (getFieldD e "latitude")))
    lng := .jnum (parseFloatJS (jsToString (getFieldD e "longitude")))
    address := .jstr (jsTrim (jsToString (getFieldD e "address") ++ ", " ++
      jsToString (orEmptyStr (getFieldD e "zipCode")) ++ " " ++
      jsToString (orEmptyStr (getFieldD e "city"))))
    city := getFieldD e "city"
    source := .jstr "AVS"
    categories := .jarr (if category ≠ "" then [.jstr category] else [])
    filter := .jarr (if filt.isFiniteB then [.jnum filt] else [])
    updatedAt := .jstr updatedAt }

/-- Property access on a non-nullish receiver does not throw. -/
theorem getPropE_ok {e : JSVal} (hnn : e.nullish = false) (k : String) :
    getPropE e k = .ok (getFieldD e k) := by
  unfold getPropE
  rw [hnn]
  rfl

/-- `normalizeAchahada` succeeds and produces `achahadaEntity` when the
record is non-nullish and the `trim` of its `store` field succeeds. -/
theorem normalizeAchahada_ok {e : JSVal} (hnn : e.nullish = false)
    (category : String) (filt : JSNum) (updatedAt : String) {namev : JSVal}
    (hst : optTrimE (getFieldD e "store") = .ok namev) :
    normalizeAchahada e category filt updatedAt =
      .ok (achahadaEntity e category filt updatedAt namev) := by
  unfold normalizeAchahada achahadaEntity
  rw [getPropE_ok hnn, getPropE_ok hnn, getPropE_ok hnn, getPropE_ok hnn,
    getPropE_ok hnn, getPropE_ok hnn, getPropE_ok hnn]
  simp only [bind, Except.bind, hst]
  rfl

/-- `normalizeAvs` succeeds and produces `avsEntity` when the record is
non-nullish and the `trim` of its `name` field succeeds. -/
theorem normalizeAvs_ok {e : JSVal} (hnn : e.nullish = false)
    (category : String) (filt : JSNum) (updatedAt : String) {namev : JSVal}
    (hst : optTrimE (getFieldD e "name") = .ok namev) :
    normalizeAvs e category filt updatedAt =
      .ok (avsEntity e category filt updatedAt namev) := by
  unfold normalizeAvs avsEntity
  rw [getPropE_ok hnn, getPropE_ok hnn, getPropE_ok hnn, getPropE_ok hnn,
    getPropE_ok hnn, getPropE_ok hnn, getPropE_ok hnn]
  simp only [bind, Except.bind, hst]
  rfl

/-- A non-finite candidate is normalized to `undefined`. -/
theorem nonfinite_candidate_undef (n : JSNum) :
    n.isFiniteB = false →
    (match n with
      | JSNum.num q => JSVal.jnum (.num q)
      | _ => JSVal.undef) = JSVal.undef := by
  cases n
  · intro h
    exact absurd h (by simp [JSNum.isFiniteB])
  all_goals intro _; rfl

/-- Claim C9 (amended): for every **non-nullish** raw record whose
`store` (Achahada) or `name` (AVS) field is a string or nullish, the
adapters return an entity without throwing, and a record with
unparseable coordinates carries `NaN` out of the adapter, which the
shape normalization at the entry of the dedup stage turns into
`undefined` lat/lng.  (Nullish records, or records with a non-string
non-nullish `store`/`name` field, instead make the adapter throw — see
the counterexample.) -/
theorem adapters_total_on_wellformed_records (e : JSVal) (category : String)
    (filt : JSNum) (updatedAt : String) (hnn : e.nullish = false)
    (hstore : stringOrNullish (getFieldD e "store"))
    (hname : stringOrNullish (getFieldD e "name")) :
    (∃ ent, normalizeAchahada e category filt updatedAt = .ok ent ∧
      ((parseFloatJS (jsToString (getFieldD e "lat"))).isFiniteB = false →
        (normalizeEstablishmentShape ent).lat = .undef) ∧
      ((parseFloatJS (jsToString (getFieldD e "lng"))).isFiniteB = false →
        (normalizeEstablishmentShape ent).lng = .undef)) ∧
    (∃ ent, normalizeAvs e category filt updatedAt = .ok ent ∧
      ((parseFloatJS (jsToString (getFieldD e "latitude"))).isFiniteB = false →
        (normalizeEstablishmentShape ent).lat = .undef) ∧
      ((parseFloatJS (jsToString (getFieldD e "longitude"))).isFiniteB = false →
        (normalizeEstablishmentShape ent).lng = .undef)) := by
  have hTrimA : ∃ namev, optTrimE (getFieldD e "store") = .ok namev := by
    rcases hstore with h | h | ⟨s, h⟩ <;> rw [h] <;> exact ⟨_, rfl⟩
  have hTrimV : ∃ namev, optTrimE (getFieldD e "name") = .ok namev := by
    rcases hname with h | h | ⟨s, h⟩ <;> rw [h] <;> exact ⟨_, rfl⟩
  obtain ⟨nA, hA⟩ := hTrimA
  obtain ⟨nV, hV⟩ := hTrimV
  constructor
  · refine ⟨achahadaEntity e category filt updatedAt nA,
      normalizeAchahada_ok hnn category filt updatedAt hA, ?_, ?_⟩
    · intro hfin
      simp only [normalizeEstablishmentShape, achahadaEntity]
      exact nonfinite_candidate_undef _ hfin
    · intro hfin
      simp only [normalizeEstablishmentShape, achahadaEntity]
      exact nonfinite_candidate_undef _ hfin
  · refine ⟨avsEntity e category filt updatedAt nV,
      normalizeAvs_ok hnn category filt updatedAt hV, ?_, ?_⟩
    · intro hfin
      simp only [normalizeEstablishmentShape, avsEntity]
      exact nonfinite_candidate_undef _ hfin
    · intro hfin
      simp only [normalizeEstablishmentShape, avsEntity]
      exact nonfinite_candidate_undef _ hfin

/-- Witness for the amended C9 at a record with unparseable
coordinates. -/
theorem adapters_total_witness :
    (JSVal.jobj [("id", .jstr "7"), ("store", .jstr " Shop "),
      ("name", .jstr "Shop"), ("lat", .jstr "abc")]).nullish = false ∧
    (∃ ent,
      normalizeAchahada
        (.jobj [("id", .jstr "7"), ("store", .jstr " Shop "),
          ("name", .jstr "Shop"), ("lat", .jstr "abc")])
        "Restaurant" (.num 29) "2024" = .ok ent ∧
      ((parseFloatJS (jsToString (getFieldD
          (.jobj [("id", .jstr "7"), ("store", .jstr " Shop "),
            ("name", .jstr "Shop"), ("lat", .jstr "abc")]) "lat"))).isFiniteB =
            false →
        (normalizeEstablishmentShape ent).lat = .undef) ∧
      ((parseFloatJS (jsToString (getFieldD
          (.jobj [("id", .jstr "7"), ("store", .jstr " Shop "),
            ("name", .jstr "Shop"), ("lat", .jstr "abc")]) "lng"))).isFiniteB =
            false →
        (normalizeEstablishmentShape ent).lng = .undef)) := by
  constructor
  · rfl
  · exact (adapters_total_on_wellformed_records
      (.jobj [("id", .jstr "7"), ("store", .jstr " Shop "),
        ("name", .jstr "Shop"), ("lat", .jstr "abc")])
      "Restaurant" (.num 29) "2024" rfl
      (Or.inr (Or.inr ⟨" Shop ", by with_unfolding_all rfl⟩))
      (Or.inr (Or.inr ⟨"Shop", by with_unfolding_all rfl⟩))).1

/-- Reading another reference is unaffected by a write. -/
theorem readObj_writeObj_ne {store : Store} {r r' : Nat} (v : EstObj)
    (h : r' ≠ r) : readObj (writeObj store r v) r' = readObj store r' := by
  unfold readObj writeObj
  rw [List.getD_eq_getElem?_getD, List.getD_eq_getElem?_getD,
    List.getElem?_set_ne (fun hEq => h hEq.symm)]

/-- Reading a valid reference just written returns the written value. -/
theorem readObj_writeObj_self {store : Store} {r : Nat} (v : EstObj)
    (h : r < store.length) : readObj (writeObj store r v) r = v := by
  unfold readObj writeObj
  rw [List.getD_eq_getElem?_getD, List.getElem?_set_self h]
  rfl

/-- Writes preserve the store size. -/
theorem writeObj_length (store : Store) (r : Nat) (v : EstObj) :
    (writeObj store r v).length = store.length := List.length_set store r v

/-- The differ's store update is `diffStepStore` in every
classification branch. -/
theorem diffStep_store_eq (o : List (JSVal × Nat)) (ts : String)
    (st : DiffState) (r : Nat) :
    (diffStep o ts st r).store = diffStepStore o ts st.store r := by
  unfold diffStep
  dsimp only
  split
  · rfl
  · split <;> rfl

/-- The differ's seen-id update in every classification branch. -/
theorem diffStep_seen_eq (o : List (JSVal × Nat)) (ts : String)
    (st : DiffState) (r : Nat) :
    (diffStep o ts st r).seenIds =
      (if (readObj st.store r).id.truthy then
        setAdd st.seenIds (readObj st.store r).id else st.seenIds) := by
  unfold diffStep
  dsimp only
  split
  · rfl
  · split <;> rfl

/-- One differ step writes only its own reference. -/
theorem diffStepStore_frame (o : List (JSVal × Nat)) (ts : String)
    (store : Store) (r r' : Nat) (h : r' ≠ r) :
    readObj (diffStepStore o ts store r) r' = readObj store r' := by
  unfold diffStepStore
  dsimp only
  repeat' split
  all_goals simp only [readObj_writeObj_ne _ h]

/-- One differ step preserves the store size. -/
theorem diffStepStore_length (o : List (JSVal × Nat)) (ts : String)
    (store : Store) (r : Nat) :
    (diffStepStore o ts store r).length = store.length := by
  unfold diffStepStore
  dsimp only
  repeat' split
  all_goals simp only [writeObj_length]

/-- After its own step, a valid current entry carries the sync stamps
`updatedAt = ts` and `removedAt = null`. -/
theorem diffStepStore_stamps_self (o : List (JSVal × Nat)) (ts : String)
    (store : Store) (r : Nat) (h : r < store.length) :
    (readObj (diffStepStore o ts store r) r).updatedAt = .jstr ts ∧
    (readObj (diffStepStore o ts store r) r).removedAt = .jnull := by
  unfold diffStepStore
  dsimp only
  have h1 : r < (writeObj store r
      { readObj store r with updatedAt := .jstr ts, removedAt := .jnull }).length := by
    rw [writeObj_length]; exact h
  cases hER : (if (readObj store r).id.truthy = true then
      mapLookupLast o (readObj store r).id else none) with
  | none =>
    dsimp only
    split
    · rw [readObj_writeObj_self _ h1, readObj_writeObj_self _ h]
      exact ⟨rfl, rfl⟩
    · rw [readObj_writeObj_self _ h]
      exact ⟨rfl, rfl⟩
  | some er =>
    dsimp only
    split
    · rw [readObj_writeObj_self _ h1, readObj_writeObj_self _ h]
      exact ⟨rfl, rfl⟩
    · split
      · rw [readObj_writeObj_self _ h1, readObj_writeObj_self _ h]
        exact ⟨rfl, rfl⟩
      · rw [readObj_writeObj_self _ h]
        exact ⟨rfl, rfl⟩

/-- The whole current loop leaves every reference outside the
processed list untouched. -/
theorem diffFold_frame (o : List (JSVal × Nat)) (ts : String) :
    ∀ (refs : List Nat) (st : DiffState) (r' : Nat), r' ∉ refs →
      readObj ((refs.foldl (diffStep o ts) st).store) r' = readObj st.store r' := by
  intro refs
  induction refs with
  | nil => intro st r' _; rfl
  | cons r0 rest ih =>
    intro st r' hnot
    rw [List.foldl_cons]
    rw [ih _ r' (fun hm => hnot (List.mem_cons_of_mem _ hm))]
    rw [diffStep_store_eq]
    exact diffStepStore_frame o ts st.store r0 r'
      (fun hEq => hnot (hEq ▸ List.mem_cons_self _ _))

/-- The whole current loop preserves the store size. -/
theorem diffFold_length (o : List (JSVal × Nat)) (ts : String) :
    ∀ (refs : List Nat) (st : DiffState),
      ((refs.foldl (diffStep o ts) st).store).length = st.store.length := by
  intro refs
  induction refs with
  | nil => intro st; rfl
  | cons r0 rest ih =>
    intro st
    rw [List.foldl_cons, ih, diffStep_store_eq]
    exact diffStepStore_length o ts st.store r0

/-- After the whole current loop, every valid processed reference
carries the sync stamps. -/
theorem diffFold_stamps (o : List (JSVal × Nat)) (ts : String) :
    ∀ (refs : List Nat) (st : DiffState),
      (∀ r ∈ refs, r < st.store.length) →
      ∀ r ∈ refs,
        (readObj ((refs.foldl (diffStep o ts) st).store) r).updatedAt = .jstr ts ∧
        (readObj ((refs.foldl (diffStep o ts) st).store) r).removedAt = .jnull := by
  intro refs
  induction refs with
  | nil => intro st _ r hr; exact absurd hr (by simp)
  | cons r0 rest ih =>
    intro st hvalid r hr
    rw [List.foldl_cons]
    have hvalid' : ∀ r' ∈ rest, r' < (diffStep o ts st r0).store.length := by
      intro r' hm
      rw [diffStep_store_eq, diffStepStore_length]
      exact hvalid r' (List.mem_cons_of_mem _ hm)
    rcases List.mem_cons.mp hr with rfl | hm
    · by_cases hin : r ∈ rest
      · exact ih (diffStep o ts st r) hvalid' r hin
      · rw [diffFold_frame o ts rest _ r hin, diffStep_store_eq]
        exact diffStepStore_stamps_self o ts st.store r
          (hvalid r (List.mem_cons_self _ _))
    · exact ih (diffStep o ts st r0) hvalid' r hm

/-- Every entry the removal loop emits carries the removal stamps. -/
theorem removalFold_stamps (seen : List JSVal) (ts : String) (store : Store) :
    ∀ (refs : List Nat) (removed : List EstObj),
      (∀ e ∈ removed, e.removedAt = .jstr ts ∧ e.updatedAt = .jstr ts) →
      ∀ e ∈ refs.foldl (removalStep seen ts store) removed,
        e.removedAt = .jstr ts ∧ e.updatedAt = .jstr ts := by
  intro refs
  induction refs with
  | nil => intro removed hinv; simpa using hinv
  | cons r0 rest ih =>
    intro removed hinv
    rw [List.foldl_cons]
    apply ih
    intro e he
    unfold removalStep at he
    dsimp only at he
    split at he
    · exact hinv e he
    · rcases List.mem_append.mp he with hm | hm
      · exact hinv e hm
      · rcases List.mem_singleton.mp hm with rfl
        exact ⟨rfl, rfl⟩

/-- Claim C7: `computeChangelogEntries` never mutates the `previous`
array or any object inside it — with `previous` references disjoint
from `current` references (distinct objects, as in the repository's
pipeline), every previous object reads back unchanged afterwards, so in
particular its `removedAt` property is exactly what it was before (the
removal stamps land only on the clones placed in `removed`, which all
carry `removedAt = updatedAt = syncTimestamp`); by contrast every
entity of `current` is mutated in place with `updatedAt =
syncTimestamp` and `removedAt = null`. -/
theorem computeChangelog_previous_not_mutated (store : Store)
    (currentRefs previousRefs : List Nat) (ts : String)
    (hdisj : ∀ r ∈ previousRefs, r ∉ currentRefs)
    (hvalid : ∀ r ∈ currentRefs, r < store.length) :
    (∀ r ∈ previousRefs,
      readObj (computeChangelogEntries store currentRefs previousRefs ts).1 r =
        readObj store r) ∧
    (∀ r ∈ currentRefs,
      (readObj (computeChangelogEntries store currentRefs previousRefs ts).1 r).updatedAt =
        .jstr ts ∧
      (readObj (computeChangelogEntries store currentRefs previousRefs ts).1 r).removedAt =
        .jnull) ∧
    (∀ e ∈ (computeChangelogEntries store currentRefs previousRefs ts).2.removed,
      e.removedAt = .jstr ts ∧ e.updatedAt = .jstr ts) := by
  unfold computeChangelogEntries
  dsimp only
  refine ⟨?_, ?_, ?_⟩
  · intro r hr
    exact diffFold_frame _ ts currentRefs _ r (hdisj r hr)
  · intro r hr
    exact diffFold_stamps _ ts currentRefs _ hvalid r hr
  · exact removalFold_stamps _ ts _ previousRefs [] (by simp)

/-- Witness for C7: one current object and one previous object laid
out at references `0` and `1`. -/
theorem computeChangelog_previous_not_mutated_witness :
    (∀ r ∈ [1],
      readObj (computeChangelogEntries
        [{ id := .jstr "a" }, { id := .jstr "b", removedAt := .undef }] [0] [1] "T").1 r =
        readObj [{ id := .jstr "a" }, { id := .jstr "b", removedAt := .undef }] r) ∧
    (∀ r ∈ [0],
      (readObj (computeChangelogEntries
        [{ id := .jstr "a" }, { id := .jstr "b", removedAt := .undef }] [0] [1] "T").1 r).updatedAt =
        .jstr "T" ∧
      (readObj (computeChangelogEntries
        [{ id := .jstr "a" }, { id := .jstr "b", removedAt := .undef }] [0] [1] "T").1 r).removedAt =
        .jnull) ∧
    (∀ e ∈ (computeChangelogEntries
        [{ id := .jstr "a" }, { id := .jstr "b", removedAt := .undef }] [0] [1] "T").2.removed,
      e.removedAt = .jstr "T" ∧ e.updatedAt = .jstr "T") :=
  computeChangelog_previous_not_mutated
    [{ id := .jstr "a" }, { id := .jstr "b", removedAt := .undef }] [0] [1] "T"
    (by simp) (by simp)

/-- A write past the end of the store is a no-op. -/
theorem writeObj_invalid {store : Store} {r : Nat} (v : EstObj)
    (h : store.length ≤ r) : writeObj store r v = store :=
  List.set_eq_of_length_le h

/-- The differ never writes the `id` field: reading any reference after
one store step yields the original `id`. -/
theorem diffStepStore_id (o : List (JSVal × Nat)) (ts : String)
    (store : Store) (r r' : Nat) :
    (readObj (diffStepStore o ts store r) r').id = (readObj store r').id := by
  by_cases hrr : r' = r
  · subst hrr
    by_cases hv : r' < store.length
    · have h1 : r' < (writeObj store r'
          { readObj store r' with updatedAt := .jstr ts, removedAt := .jnull }).length := by
        rw [writeObj_length]; exact hv
      unfold diffStepStore
      dsimp only
      cases hER : (if (readObj store r').id.truthy = true then
          mapLookupLast o (readObj store r').id else none) with
      | none =>
        dsimp only
        split
        · rw [readObj_writeObj_self _ h1, readObj_writeObj_self _ hv]
        · rw [readObj_writeObj_self _ hv]
      | some er =>
        dsimp only
        split
        · rw [readObj_writeObj_self _ h1, readObj_writeObj_self _ hv]
        · split
          · rw [readObj_writeObj_self _ h1, readObj_writeObj_self _ hv]
          · rw [readObj_writeObj_self _ hv]
    · have hge : store.length ≤ r' := Nat.le_of_not_lt hv
      unfold diffStepStore
      dsimp only
      rw [writeObj_invalid _ hge]
      cases hER : (if (readObj store r').id.truthy = true then
          mapLookupLast o (readObj store r').id else none) with
      | none =>
        dsimp only
        split
        · rw [writeObj_invalid _ hge]
        · rfl
      | some er =>
        dsimp only
        split
        · rw [writeObj_invalid _ hge]
        · split
          · rw [writeObj_invalid _ hge]
          · rfl
  · rw [diffStepStore_frame o ts store r r' hrr]

/-- The `id` of every reference survives the whole current loop. -/
theorem diffFold_id (o : List (JSVal × Nat)) (ts : String) :
    ∀ (refs : List Nat) (st : DiffState) (r' : Nat),
      (readObj ((refs.foldl (diffStep o ts) st).store) r').id =
        (readObj st.store r').id := by
  intro refs
  induction refs with
  | nil => intro st r'; rfl
  | cons r0 rest ih =>
    intro st r'
    rw [List.foldl_cons, ih, diffStep_store_eq]
    exact diffStepStore_id o ts st.store r0 r'

/-- Membership after a `Set.prototype.add`. -/
theorem setHas_setAdd {l : List JSVal} {v x : JSVal}
    (h : setHas (setAdd l v) x = true) :
    setHas l x = true ∨ svz v x = true := by
  unfold setAdd at h
  split at h
  · exact Or.inl h
  · unfold setHas at h ⊢
    rw [List.any_append] at h
    rcases Bool.or_eq_true_iff.mp h with h | h
    · exact Or.inl h
    · simp only [List.any_cons, List.any_nil, Bool.or_false] at h
      exact Or.inr h

/-- Every id in the seen-set after the current loop was either already
seen or is the id of one of the processed references (as read from the
initial store — the differ never writes ids). -/
theorem diffFold_seen_subset (o : List (JSVal × Nat)) (ts : String) :
    ∀ (refs : List Nat) (st : DiffState) (x : JSVal),
      setHas ((refs.foldl (diffStep o ts) st).seenIds) x = true →
      setHas st.seenIds x = true ∨
        ∃ r ∈ refs, svz (readObj st.store r).id x = true := by
  intro refs
  induction refs with
  | nil => intro st x h; exact Or.inl h
  | cons r0 rest ih =>
    intro st x h
    rw [List.foldl_cons] at h
    rcases ih (diffStep o ts st r0) x h with h | ⟨r, hr, hid⟩
    · rw [diffStep_seen_eq] at h
      split at h
      · rcases setHas_setAdd h with h | h
        · exact Or.inl h
        · exact Or.inr ⟨r0, List.mem_cons_self _ _, h⟩
      · exact Or.inl h
    · rw [diffStep_store_eq, diffStepStore_id] at hid
      exact Or.inr ⟨r, List.mem_cons_of_mem _ hr, hid⟩

/-- Entries already emitted stay in the removal loop's output. -/
theorem removalFold_mono (seen : List JSVal) (ts : String) (store : Store) :
    ∀ (refs : List Nat) (removed : List EstObj) (x : EstObj),
      x ∈ removed → x ∈ refs.foldl (removalStep seen ts store) removed := by
  intro refs
  induction refs with
  | nil => intro removed x h; simpa using h
  | cons r0 rest ih =>
    intro removed x h
    rw [List.foldl_cons]
    apply ih
    unfold removalStep
    dsimp only
    split
    · exact h
    · exact List.mem_append_left _ h

/-- A processed previous reference with a truthy, unseen id contributes
its stamped clone to the removal loop's output. -/
theorem removalFold_emits (seen : List JSVal) (ts : String) (store : Store) :
    ∀ (refs : List Nat) (removed : List EstObj) (r : Nat), r ∈ refs →
      (readObj store r).id.truthy = true →
      setHas seen (readObj store r).id = false →
      { cloneEstablishment (readObj store r) with
          removedAt := .jstr ts, updatedAt := .jstr ts } ∈
        refs.foldl (removalStep seen ts store) removed := by
  intro refs
  induction refs with
  | nil => intro removed r hr; exact absurd hr (by simp)
  | cons r0 rest ih =>
    intro removed r hr htruthy hunseen
    rw [List.foldl_cons]
    rcases List.mem_cons.mp hr with rfl | hm
    · apply removalFold_mono
      unfold removalStep
      dsimp only
      split
      · rename_i hcond
        rw [htruthy, hunseen] at hcond
        exact absurd hcond (by simp)
      · exact List.mem_append_right _ (List.mem_singleton.mpr rfl)
    · exact ih _ r hm htruthy hunseen

/-- Each differ step classifies its entry into exactly one bucket: it
grows `added` by one, or grows `modified` by one, or (the entry is
unchanged) grows neither. -/
theorem diffStep_classification (o : List (JSVal × Nat)) (ts : String)
    (st : DiffState) (r : Nat) :
    ((diffStep o ts st r).added.length = st.added.length + 1 ∧
      (diffStep o ts st r).modified.length = st.modified.length) ∨
    ((diffStep o ts st r).added.length = st.added.length ∧
      (diffStep o ts st r).modified.length = st.modified.length + 1) ∨
    ((diffStep o ts st r).added.length = st.added.length ∧
      (diffStep o ts st r).modified.length = st.modified.length) := by
  unfold diffStep
  dsimp only
  split
  · exact Or.inl ⟨by simp, rfl⟩
  · split
    · exact Or.inr (Or.inl ⟨rfl, by simp⟩)
    · exact Or.inr (Or.inr ⟨rfl, rfl⟩)

/-- The number of processed entries for which the differ step grows
neither `added` nor `modified` — the "unchanged" bucket of the
spec's trichotomy. -/
def unchangedCount (o : List (JSVal × Nat)) (ts : String) :
    List Nat → DiffState → Nat
  | [], _ => 0
  | r :: rest, st =>
    (if (diffStep o ts st r).added.length = st.added.length ∧
        (diffStep o ts st r).modified.length = st.modified.length
      then 1 else 0) +
      unchangedCount o ts rest (diffStep o ts st r)

/-- Counting invariant of the current loop: every processed entry lands
in exactly one of the three buckets. -/
theorem diffFold_count (o : List (JSVal × Nat)) (ts : String) :
    ∀ (refs : List Nat) (st : DiffState),
      ((refs.foldl (diffStep o ts) st).added).length +
        ((refs.foldl (diffStep o ts) st).modified).length +
        unchangedCount o ts refs st =
      st.added.length + st.modified.length + refs.length := by
  intro refs
  induction refs with
  | nil => intro st; simp [unchangedCount]
  | cons r0 rest ih =>
    intro st
    rw [List.foldl_cons]
    have hrec := ih (diffStep o ts st r0)
    unfold unchangedCount
    rcases diffStep_classification o ts st r0 with ⟨ha, hm⟩ | ⟨ha, hm⟩ | ⟨ha, hm⟩
    · rw [if_neg (fun hc => by omega)]
      simp only [List.length_cons]
      omega
    · rw [if_neg (fun hc => by omega)]
      simp only [List.length_cons]
      omega
    · rw [if_pos ⟨ha, hm⟩]
      simp only [List.length_cons]
      omega

/-- The size of the unchanged bucket of one `computeChangelogPure`
call. -/
def unchangedTotal (current previous : List EstObj) (ts : String) : Nat :=
  unchangedCount
    (buildOldById (current ++ previous)
      ((List.range previous.length).map (· + current.length)))
    ts (List.range current.length) ⟨current ++ previous, [], [], []⟩

/-- Claim C1: every entity of `current` is classified in exactly one of
added, modified, unchanged — so `added.length + modified.length +
unchanged = current.length` — and every entity of `previous` that has
an id (a truthy one; the code skips id-less previous entries) not
occurring among the ids of `current` appears in `removed` as its deep
clone stamped with `removedAt = updatedAt = syncTimestamp`. -/
theorem computeChangelog_partitions (current previous : List EstObj) (ts : String) :
    ((computeChangelogPure current previous ts).2.added.length +
      (computeChangelogPure current previous ts).2.modified.length +
      unchangedTotal current previous ts = current.length) ∧
    (∀ p ∈ previous, p.id.truthy = true →
      (∀ c ∈ current, svz c.id p.id = false) →
      { cloneEstablishment p with
          removedAt := .jstr ts, updatedAt := .jstr ts } ∈
        (computeChangelogPure current previous ts).2.removed) := by
  constructor
  · unfold computeChangelogPure computeChangelogEntries unchangedTotal
    dsimp only
    rw [diffFold_count]
    simp
  · intro p hp htruthy hnone
    obtain ⟨i, hi, hget⟩ := List.mem_iff_getElem.mp hp
    unfold computeChangelogPure computeChangelogEntries
    dsimp only
    set oldById := buildOldById (current ++ previous)
      ((List.range previous.length).map (· + current.length)) with hOld
    set st := (List.range current.length).foldl (diffStep oldById ts)
      ⟨current ++ previous, [], [], []⟩ with hst
    have hrefmem : i + current.length ∈
        (List.range previous.length).map (· + current.length) :=
      List.mem_map.mpr ⟨i, List.mem_range.mpr hi, rfl⟩
    have hnotcur : i + current.length ∉ List.range current.length := by
      rw [List.mem_range]
      omega
    have hread0 : readObj (current ++ previous) (i + current.length) = p := by
      unfold readObj
      rw [List.getD_eq_getElem?_getD,
        List.getElem?_append_right (by omega : current.length ≤ i + current.length)]
      simp only [Nat.add_sub_cancel]
      rw [List.getElem?_eq_getElem hi]
      simpa using hget
    have hreadfin : readObj st.store (i + current.length) = p := by
      rw [hst, diffFold_frame _ ts _ _ _ hnotcur]
      exact hread0
    have hseen : setHas st.seenIds p.id = false := by
      by_contra hcon
      rw [Bool.not_eq_false] at hcon
      rcases diffFold_seen_subset _ ts _ _ _ hcon with hfalse | ⟨r, hr, hsvz⟩

      · simp [setHas] at hfalse
      · have hrlt : r < current.length := List.mem_range.mp hr
        have : readObj (current ++ previous) r = current[r] := by
          unfold readObj
          rw [List.getD_eq_getElem?_getD, List.getElem?_append_left hrlt,
            List.getElem?_eq_getElem hrlt]
          rfl
        rw [this] at hsvz
        have := hnone current[r] (List.getElem_mem hrlt)
        rw [this] at hsvz
        exact Bool.false_ne_true hsvz
    have := removalFold_emits st.seenIds ts st.store
      ((List.range previous.length).map (· + current.length)) []
      (i + current.length) hrefmem
      (by rw [hreadfin]; exact htruthy)
      (by rw [hreadfin]; exact hseen)
    rw [hreadfin] at this
    exact this

/-- Witness for C1: two current entities (one brand new, one matching
a previous entity) against two previous entities (one matched, one
removed). -/
theorem computeChangelog_partitions_witness :
    ((computeChangelogPure
        [{ id := .jstr "x", name := .jstr "New name" }, { id := .jstr "b" }]
        [{ id := .jstr "x", name := .jstr "Old name" }, { id := .jstr "gone" }]
        "T").2.added.length +
      (computeChangelogPure
        [{ id := .jstr "x", name := .jstr "New name" }, { id := .jstr "b" }]
        [{ id := .jstr "x", name := .jstr "Old name" }, { id := .jstr "gone" }]
        "T").2.modified.length +
      unchangedTotal
        [{ id := .jstr "x", name := .jstr "New name" }, { id := .jstr "b" }]
        [{ id := .jstr "x", name := .jstr "Old name" }, { id := .jstr "gone" }]
        "T" = 2) ∧
    ({ cloneEstablishment { id := .jstr "gone" } with
        removedAt := .jstr "T", updatedAt := .jstr "T" } ∈
      (computeChangelogPure
        [{ id := .jstr "x", name := .jstr "New name" }, { id := .jstr "b" }]
        [{ id := .jstr "x", name := .jstr "Old name" }, { id := .jstr "gone" }]
        "T").2.removed) := by
  constructor
  · exact (computeChangelog_partitions
      [{ id := .jstr "x", name := .jstr "New name" }, { id := .jstr "b" }]
      [{ id := .jstr "x", name := .jstr "Old name" }, { id := .jstr "gone" }]
      "T").1
  · exact (computeChangelog_partitions
      [{ id := .jstr "x", name := .jstr "New name" }, { id := .jstr "b" }]
      [{ id := .jstr "x", name := .jstr "Old name" }, { id := .jstr "gone" }]
      "T").2 { id := .jstr "gone" } (by simp) rfl
      (by intro c hc; fin_cases hc <;> with_unfolding_all rfl)

/-- A successful map lookup returns a pair of the map. -/
theorem mapLookupLast_mem : ∀ (pairs : List (JSVal × Nat)) (acc : Option Nat)
    (k : JSVal) (v : Nat),
    pairs.foldl (fun a p => if svz p.1 k then some p.2 else a) acc = some v →
    (∃ pair ∈ pairs, svz pair.1 k = true ∧ pair.2 = v) ∨ acc = some v := by
  intro pairs
  induction pairs with
  | nil => intro acc k v h; exact Or.inr (by simpa using h)
  | cons p ps ih =>
    intro acc k v h
    rw [List.foldl_cons] at h
    rcases ih _ k v h with ⟨pair, hm, hs, hv⟩ | hacc
    · exact Or.inl ⟨pair, List.mem_cons_of_mem _ hm, hs, hv⟩
    · by_cases hp : svz p.1 k = true
      · rw [if_pos hp] at hacc
        exact Or.inl ⟨p, List.mem_cons_self _ _, hp, by injection hacc⟩
      · rw [if_neg hp] at hacc
        exact Or.inr hacc

/-- A lookup from a `some` accumulator never becomes `none`. -/
theorem mapLookupLast_isSome_acc (k : JSVal) :
    ∀ (pairs : List (JSVal × Nat)) (acc : Option Nat), acc.isSome →
      (pairs.foldl (fun a p => if svz p.1 k then some p.2 else a) acc).isSome := by
  intro pairs
  induction pairs with
  | nil => intro acc h; simpa using h
  | cons p ps ih =>
    intro acc h
    rw [List.foldl_cons]
    apply ih
    split
    · rfl
    · exact h

/-- A lookup succeeds when some pair matches the key. -/
theorem mapLookupLast_isSome (pairs : List (JSVal × Nat)) (k : JSVal)
    (h : ∃ pair ∈ pairs, svz pair.1 k = true) :
    (mapLookupLast pairs k).isSome := by
  obtain ⟨pair, hm, hs⟩ := h
  unfold mapLookupLast
  obtain ⟨l1, l2, rfl⟩ := List.append_of_mem hm
  rw [List.foldl_append, List.foldl_cons, if_pos hs]
  exact mapLookupLast_isSome_acc k l2 _ rfl

/-- A lookup fails when no pair matches the key. -/
theorem mapLookupLast_none (pairs : List (JSVal × Nat)) (k : JSVal)
    (h : ∀ pair ∈ pairs, svz pair.1 k = false) :
    mapLookupLast pairs k = none := by
  unfold mapLookupLast
  induction pairs with
  | nil => rfl
  | cons p ps ih =>
    rw [List.foldl_cons, if_neg (by
      rw [h p (List.mem_cons_self _ _)]
      exact Bool.false_ne_true)]
    exact ih (fun pair hm => h pair (List.mem_cons_of_mem _ hm))

/-- Every pair of `buildOldById` is the id and reference of a previous
entry with a truthy id. -/
theorem buildOldById_mem {store : Store} {previousRefs : List Nat}
    {pair : JSVal × Nat} (h : pair ∈ buildOldById store previousRefs) :
    pair.2 ∈ previousRefs ∧ pair.1 = (readObj store pair.2).id ∧
      (readObj store pair.2).id.truthy = true := by
  unfold buildOldById at h
  rw [List.mem_filterMap] at h
  obtain ⟨r, hr, he⟩ := h
  dsimp only at he
  split at he
  · rename_i htr
    rw [Option.some_inj] at he
    rw [← he]
    exact ⟨hr, rfl, htr⟩
  · exact absurd he (by simp)

/-- Conversely, every previous reference with a truthy id contributes
its pair. -/
theorem buildOldById_mem_of (store : Store) {previousRefs : List Nat} {r : Nat}
    (hr : r ∈ previousRefs) (htr : (readObj store r).id.truthy = true) :
    ((readObj store r).id, r) ∈ buildOldById store previousRefs := by
  unfold buildOldById
  rw [List.mem_filterMap]
  exact ⟨r, hr, by rw [if_pos htr]⟩

/-- The `createdAt` the differ settles on for a fresh entry (falsy
`createdAt`) with a truthy id: the previous entry's `createdAt` when a
match exists with a truthy `createdAt`, the sync timestamp otherwise. -/
theorem diffStepStore_createdAt (o : List (JSVal × Nat)) (ts : String)
    (store : Store) (r : Nat) (hv : r < store.length)
    (htr : (readObj store r).id.truthy = true)
    (hfresh : (readObj store r).createdAt.truthy = false)
    (hner : ∀ er, mapLookupLast o ((readObj store r).id) = some er → er ≠ r) :
    (readObj (diffStepStore o ts store r) r).createdAt =
      (match mapLookupLast o ((readObj store r).id) with
        | some er =>
          if (readObj store er).createdAt.truthy then (readObj store er).createdAt
          else .jstr ts
        | none => .jstr ts) := by
  have h1 : r < (writeObj store r
      { readObj store r with updatedAt := .jstr ts, removedAt := .jnull }).length := by
    rw [writeObj_length]; exact hv
  unfold diffStepStore
  dsimp only
  rw [if_pos htr]
  cases hL : mapLookupLast o ((readObj store r).id) with
  | none =>
    dsimp only
    rw [readObj_writeObj_self _ hv]
    split
    · rw [readObj_writeObj_self _ h1]
    · rename_i hcon
      rw [hfresh] at hcon
      exact absurd rfl hcon
  | some er =>
    dsimp only
    have hner' : er ≠ r := hner er hL
    rw [readObj_writeObj_ne _ hner']
    split
    · rw [readObj_writeObj_self _ h1]
    · rw [readObj_writeObj_self _ hv]
      split
      · rw [readObj_writeObj_self _ h1]
      · rename_i hcon
        rw [hfresh] at hcon
        exact absurd rfl hcon

/-- The `createdAt` rule lifted over the whole current loop, for
duplicate-free reference lists whose lookup targets lie outside the
loop (as in `computeChangelogPure`). -/
theorem diffFold_createdAt (o : List (JSVal × Nat)) (ts : String) :
    ∀ (refs : List Nat) (st : DiffState) (r : Nat), r ∈ refs → refs.Nodup →
      (∀ r' ∈ refs, r' < st.store.length) →
      (∀ er, mapLookupLast o ((readObj st.store r).id) = some er → er ∉ refs) →
      (readObj st.store r).id.truthy = true →
      (readObj st.store r).createdAt.truthy = false →
      (readObj ((refs.foldl (diffStep o ts) st).store) r).createdAt =
        (match mapLookupLast o ((readObj st.store r).id) with
          | some er =>
            if (readObj st.store er).createdAt.truthy then
              (readObj st.store er).createdAt
            else .jstr ts
          | none => .jstr ts) := by
  intro refs
  induction refs with
  | nil => intro st r hr; exact absurd hr (by simp)
  | cons r0 rest ih =>
    intro st r hr hnodup hvalid hout htr hfresh
    obtain ⟨hr0rest, hnodup'⟩ := List.nodup_cons.mp hnodup
    rw [List.foldl_cons]
    rcases List.mem_cons.mp hr with rfl | hm
    · rw [diffFold_frame o ts rest _ r hr0rest, diffStep_store_eq]
      exact diffStepStore_createdAt o ts st.store r
        (hvalid r (List.mem_cons_self _ _)) htr hfresh
        (fun er hEq => fun hc => hout er hEq (hc ▸ List.mem_cons_self _ _))
    · have hrne : r ≠ r0 := fun hEq => hr0rest (hEq ▸ hm)
      have hobj : readObj (diffStep o ts st r0).store r = readObj st.store r := by
        rw [diffStep_store_eq]
        exact diffStepStore_frame o ts st.store r0 r hrne
      have hres := ih (diffStep o ts st r0) r hm hnodup'
        (by
          intro r' hr'
          rw [diffStep_store_eq, diffStepStore_length]
          exact hvalid r' (List.mem_cons_of_mem _ hr'))
        (by
          rw [hobj]
          intro er hEq hmem
          exact hout er hEq (List.mem_cons_of_mem _ hmem))
        (by rw [hobj]; exact htr)
        (by rw [hobj]; exact hfresh)
      rw [hres, hobj]
      cases hL : mapLookupLast o ((readObj st.store r).id) with
      | none => rfl
      | some er =>
        have herne : er ≠ r0 := fun hEq =>
          hout er hL (hEq ▸ List.mem_cons_self _ _)
        dsimp only
        rw [diffStep_store_eq, diffStepStore_frame o ts st.store r0 er herne]

/-- SameValueZero against a string key holds exactly for that string. -/
theorem svz_jstr_iff (v : JSVal) (X : String) :
    svz v (.jstr X) = true ↔ v = .jstr X := by
  cases v <;> simp [svz]

/-- The final store of one changelog computation keeps its size. -/
theorem changelog_store_length (current previous : List EstObj) (ts : String) :
    (computeChangelogEntries (current ++ previous) (List.range current.length)
      ((List.range previous.length).map (· + current.length)) ts).1.length =
      current.length + previous.length := by
  unfold computeChangelogEntries
  dsimp only
  rw [diffFold_length]
  simp

/-- Every entity of the stamped `current` output is the final store's
object at some current reference, and its id is the original one. -/
theorem pure_out_elim (current previous : List EstObj) (ts : String) :
    ∀ e ∈ (computeChangelogPure current previous ts).1,
      ∃ r, r < current.length ∧
        e = readObj (computeChangelogEntries (current ++ previous)
          (List.range current.length)
          ((List.range previous.length).map (· + current.length)) ts).1 r ∧
        e.id = (current.getD r {}).id := by
  intro e he
  unfold computeChangelogPure at he
  dsimp only at he
  obtain ⟨r, hr, hget⟩ := List.mem_iff_getElem.mp he
  have hlenS := changelog_store_length current previous ts
  have hrc : r < current.length := by
    have := hr
    rw [List.length_take, hlenS] at this
    omega
  have hrS : r < (computeChangelogEntries (current ++ previous)
      (List.range current.length)
      ((List.range previous.length).map (· + current.length)) ts).1.length := by
    rw [hlenS]; omega
  have hgetS : e = (computeChangelogEntries (current ++ previous)
      (List.range current.length)
      ((List.range previous.length).map (· + current.length)) ts).1[r] := by
    rw [← hget, List.getElem_take]
  refine ⟨r, hrc, ?_, ?_⟩
  · rw [hgetS]
    unfold readObj
    rw [List.getD_eq_getElem?_getD, List.getElem?_eq_getElem hrS]
    rfl
  · have hread : readObj (computeChangelogEntries (current ++ previous)
        (List.range current.length)
        ((List.range previous.length).map (· + current.length)) ts).1 r =
        (computeChangelogEntries (current ++ previous)
          (List.range current.length)
          ((List.range previous.length).map (· + current.length)) ts).1[r] := by
      unfold readObj
      rw [List.getD_eq_getElem?_getD, List.getElem?_eq_getElem hrS]
      rfl
    have hid : (readObj (computeChangelogEntries (current ++ previous)
        (List.range current.length)
        ((List.range previous.length).map (· + current.length)) ts).1 r).id =
        (readObj (current ++ previous) r).id := by
      unfold computeChangelogEntries
      dsimp only
      exact diffFold_id _ ts _ _ r
    rw [hgetS, ← hread, hid]
    unfold readObj
    rw [List.getD_eq_getElem?_getD, List.getD_eq_getElem?_getD,
      List.getElem?_append_left hrc]

/-- Reading a current reference of the initial combined store. -/
theorem readObj_append_left {current previous : List EstObj} {r : Nat}
    (h : r < current.length) :
    readObj (current ++ previous) r = current.getD r {} := by
  unfold readObj
  rw [List.getD_eq_getElem?_getD, List.getD_eq_getElem?_getD,
    List.getElem?_append_left h]

/-- Reading a previous reference of the initial combined store. -/
theorem readObj_append_right (current previous : List EstObj) (i : Nat) :
    readObj (current ++ previous) (i + current.length) = previous.getD i {} := by
  unfold readObj
  rw [List.getD_eq_getElem?_getD, List.getD_eq_getElem?_getD,
    List.getElem?_append_right (by omega : current.length ≤ i + current.length)]
  simp

/-- A successful `mapLookupLast` comes from a matching pair. -/
theorem mapLookupLast_some {o : List (JSVal × Nat)} {k : JSVal} {v : Nat}
    (h : mapLookupLast o k = some v) :
    ∃ pair ∈ o, svz pair.1 k = true ∧ pair.2 = v := by
  rcases mapLookupLast_mem o none k v h with h' | h'
  · exact h'
  · exact absurd h' (by simp)

/-- `getD` at a valid index is a member. -/
theorem getD_mem {l : List EstObj} {r : Nat} (h : r < l.length) :
    l.getD r {} ∈ l := by
  rw [List.getD_eq_getElem?_getD, List.getElem?_eq_getElem h]
  exact List.getElem_mem h

/-- Positional shape of the stamped output: same length as `current`,
ids unchanged. -/
theorem pure_out_id (current previous : List EstObj) (ts : String) :
    (computeChangelogPure current previous ts).1.length = current.length ∧
    ∀ r, r < current.length →
      ((computeChangelogPure current previous ts).1.getD r {}).id =
        (current.getD r {}).id := by
  have hlenS := changelog_store_length current previous ts
  have hlen : (computeChangelogPure current previous ts).1.length = current.length := by
    unfold computeChangelogPure
    dsimp only
    rw [List.length_take, hlenS]
    omega
  refine ⟨hlen, ?_⟩
  intro r hrc
  unfold computeChangelogPure
  dsimp only
  have hrS : r < (computeChangelogEntries (current ++ previous)
      (List.range current.length)
      ((List.range previous.length).map (· + current.length)) ts).1.length := by
    rw [hlenS]; omega
  have htake : ((computeChangelogEntries (current ++ previous)
      (List.range current.length)
      ((List.range previous.length).map (· + current.length)) ts).1.take
        current.length).getD r {} =
      readObj (computeChangelogEntries (current ++ previous)
        (List.range current.length)
        ((List.range previous.length).map (· + current.length)) ts).1 r := by
    unfold readObj
    rw [List.getD_eq_getElem?_getD, List.getD_eq_getElem?_getD]
    rw [List.getElem?_take_of_lt hrc]
  rw [htake]
  have hid : (readObj (computeChangelogEntries (current ++ previous)
      (List.range current.length)
      ((List.range previous.length).map (· + current.length)) ts).1 r).id =
      (readObj (current ++ previous) r).id := by
    unfold computeChangelogEntries
    dsimp only
    exact diffFold_id _ ts _ _ r
  rw [hid, readObj_append_left hrc]

/-- If `current` contains an entity with id `X`, so does the stamped
output. -/
theorem pureCall_X_presence (current previous : List EstObj) (ts X : String)
    (h : ∃ e ∈ current, e.id = .jstr X) :
    ∃ e ∈ (computeChangelogPure current previous ts).1, e.id = .jstr X := by
  obtain ⟨e, he, hid⟩ := h
  obtain ⟨r, hrc, hre⟩ := List.mem_iff_getElem.mp he
  obtain ⟨hlen, hids⟩ := pure_out_id current previous ts
  refine ⟨(computeChangelogPure current previous ts).1.getD r {},
    getD_mem (by omega), ?_⟩
  rw [hids r hrc, List.getD_eq_getElem?_getD, List.getElem?_eq_getElem hrc]
  simpa using hre ▸ hid

/-- First observation of id `X`: when no previous entity has that id,
the output entity is stamped `createdAt = updatedAt = syncTimestamp`. -/
theorem pureCall_X_first (current previous : List EstObj) (ts X : String)
    (hX : X ≠ "")
    (hprev : ∀ p ∈ previous, p.id ≠ .jstr X)
    (hfresh : ∀ e ∈ current, e.id = .jstr X → e.createdAt.truthy = false) :
    ∀ e ∈ (computeChangelogPure current previous ts).1, e.id = .jstr X →
      e.createdAt = .jstr ts ∧ e.updatedAt = .jstr ts := by
  intro e he hid
  obtain ⟨r, hrc, hE, hidr⟩ := pure_out_elim current previous ts e he
  have hvalid : ∀ r' ∈ List.range current.length,
      r' < (current ++ previous).length := by
    intro r' hr'
    rw [List.length_append]
    have := List.mem_range.mp hr'
    omega
  have hcur : readObj (current ++ previous) r = current.getD r {} :=
    readObj_append_left hrc
  have hidc : (current.getD r {}).id = .jstr X := by rw [← hidr]; exact hid
  have hK : (readObj (current ++ previous) r).id = .jstr X := by
    rw [hcur]; exact hidc
  have htr : (readObj (current ++ previous) r).id.truthy = true := by
    rw [hK]
    simp [JSVal.truthy, hX]
  have hfr : (readObj (current ++ previous) r).createdAt.truthy = false := by
    rw [hcur]
    exact hfresh _ (getD_mem hrc) hidc
  have hnone : mapLookupLast
      (buildOldById (current ++ previous)
        ((List.range previous.length).map (· + current.length)))
      ((readObj (current ++ previous) r).id) = none := by
    rw [hK]
    apply mapLookupLast_none
    intro pair hpm
    obtain ⟨hpin, hpid, _⟩ := buildOldById_mem hpm
    obtain ⟨j, hj, hjeq⟩ := List.mem_map.mp hpin
    rw [List.mem_range] at hj
    have hreadp : readObj (current ++ previous) pair.2 = previous.getD j {} := by
      rw [← hjeq]
      exact readObj_append_right current previous j
    rw [Bool.eq_false_iff]
    intro hsvz
    have := (svz_jstr_iff _ _).mp hsvz
    rw [this] at hpid
    rw [hreadp] at hpid
    exact hprev _ (getD_mem hj) hpid.symm
  have hcA := diffFold_createdAt
    (buildOldById (current ++ previous)
      ((List.range previous.length).map (· + current.length))) ts
    (List.range current.length) ⟨current ++ previous, [], [], []⟩ r
    (List.mem_range.mpr hrc) (List.nodup_range _) hvalid
    (by intro er hEq; rw [hnone] at hEq; exact absurd hEq (by simp))
    htr hfr
  rw [hnone] at hcA
  have hstamps := diffFold_stamps
    (buildOldById (current ++ previous)
      ((List.range previous.length).map (· + current.length))) ts
    (List.range current.length) ⟨current ++ previous, [], [], []⟩ hvalid r
    (List.mem_range.mpr hrc)
  constructor
  · rw [hE]
    unfold computeChangelogEntries
    dsimp only
    exact hcA
  · rw [hE]
    unfold computeChangelogEntries
    dsimp only
    exact hstamps.1

/-- Later observations of id `X`: when every previous `X`-entity
carries `createdAt = t0` (a truthy timestamp) and at least one exists,
the output entity inherits `createdAt = t0` and is stamped
`updatedAt = syncTimestamp`. -/
theorem pureCall_X_later (current previous : List EstObj) (ts X t0 : String)
    (hX : X ≠ "") (ht0 : t0 ≠ "")
    (hinv : ∀ p ∈ previous, p.id = .jstr X → p.createdAt = .jstr t0)
    (hex : ∃ p ∈ previous, p.id = .jstr X)
    (hfresh : ∀ e ∈ current, e.id = .jstr X → e.createdAt.truthy = false) :
    ∀ e ∈ (computeChangelogPure current previous ts).1, e.id = .jstr X →
      e.createdAt = .jstr t0 ∧ e.updatedAt = .jstr ts := by
  intro e he hid
  obtain ⟨r, hrc, hE, hidr⟩ := pure_out_elim current previous ts e he
  have hvalid : ∀ r' ∈ List.range current.length,
      r' < (current ++ previous).length := by
    intro r' hr'
    rw [List.length_append]
    have := List.mem_range.mp hr'
    omega
  have hcur : readObj (current ++ previous) r = current.getD r {} :=
    readObj_append_left hrc
  have hidc : (current.getD r {}).id = .jstr X := by rw [← hidr]; exact hid
  have hK : (readObj (current ++ previous) r).id = .jstr X := by
    rw [hcur]; exact hidc
  have htr : (readObj (current ++ previous) r).id.truthy = true := by
    rw [hK]
    simp [JSVal.truthy, hX]
  have hfr : (readObj (current ++ previous) r).createdAt.truthy = false := by
    rw [hcur]
    exact hfresh _ (getD_mem hrc) hidc
  have hout : ∀ er, mapLookupLast
      (buildOldById (current ++ previous)
        ((List.range previous.length).map (· + current.length)))
      ((readObj (current ++ previous) r).id) = some er →
      er ∉ List.range current.length := by
    intro er hEq
    obtain ⟨pair, hpm, _, hpv⟩ := mapLookupLast_some hEq
    have hpin := (buildOldById_mem hpm).1
    rw [hpv] at hpin
    obtain ⟨j, _, hjeq⟩ := List.mem_map.mp hpin
    rw [List.mem_range]
    omega
  have hsome : (mapLookupLast
      (buildOldById (current ++ previous)
        ((List.range previous.length).map (· + current.length)))
      ((readObj (current ++ previous) r).id)).isSome := by
    rw [hK]
    obtain ⟨p, hpmem, hpid⟩ := hex
    obtain ⟨j, hj, hpj⟩ := List.mem_iff_getElem.mp hpmem
    have hreadp : readObj (current ++ previous) (j + current.length) =
        previous.getD j {} := readObj_append_right current previous j
    have hpd : previous.getD j {} = p := by
      rw [List.getD_eq_getElem?_getD, List.getElem?_eq_getElem hj]
      simpa using hpj
    have htrp : (readObj (current ++ previous) (j + current.length)).id.truthy =
        true := by
      rw [hreadp, hpd, hpid]
      simp [JSVal.truthy, hX]
    apply mapLookupLast_isSome
    refine ⟨((readObj (current ++ previous) (j + current.length)).id,
      j + current.length),
      buildOldById_mem_of _ (List.mem_map.mpr ⟨j, List.mem_range.mpr hj, rfl⟩) htrp,
      ?_⟩
    rw [hreadp, hpd, hpid]
    exact (svz_jstr_iff _ _).mpr rfl
  obtain ⟨er, hEr⟩ := Option.isSome_iff_exists.mp hsome
  obtain ⟨pair, hpm, hsvz, hpv⟩ := mapLookupLast_some hEr
  obtain ⟨hpin, hpid, _⟩ := buildOldById_mem hpm
  rw [hK] at hsvz
  have hpid2 : (readObj (current ++ previous) pair.2).id = .jstr X := by
    rw [← hpid]
    exact (svz_jstr_iff _ _).mp hsvz
  obtain ⟨j, hj, hjeq⟩ := List.mem_map.mp hpin
  rw [List.mem_range] at hj
  have hreadp : readObj (current ++ previous) pair.2 = previous.getD j {} := by
    rw [← hjeq]
    exact readObj_append_right current previous j
  have hcreated : (readObj (current ++ previous) pair.2).createdAt = .jstr t0 := by
    rw [hreadp]
    exact hinv _ (getD_mem hj) (by rw [← hreadp]; exact hpid2)
  have hcA := diffFold_createdAt
    (buildOldById (current ++ previous)
      ((List.range previous.length).map (· + current.length))) ts
    (List.range current.length) ⟨current ++ previous, [], [], []⟩ r
    (List.mem_range.mpr hrc) (List.nodup_range _) hvalid hout htr hfr
  rw [hEr] at hcA
  dsimp only at hcA
  rw [hpv] at hcreated
  rw [hcreated] at hcA
  rw [if_pos (by simp [JSVal.truthy, ht0])] at hcA
  have hstamps := diffFold_stamps
    (buildOldById (current ++ previous)
      ((List.range previous.length).map (· + current.length))) ts
    (List.range current.length) ⟨current ++ previous, [], [], []⟩ hvalid r
    (List.mem_range.mpr hrc)
  constructor
  · rw [hE]
    unfold computeChangelogEntries
    dsimp only
    exact hcA
  · rw [hE]
    unfold computeChangelogEntries
    dsimp only
    exact hstamps.1

/-- A sequence of sync cycles: each call's stamped output (the entity
set the pipeline persists) becomes the next call's `previous`
snapshot.  Returns the stamped output of every call. -/
def runSyncs (previous : List EstObj) :
    List (List EstObj × String) → List (List EstObj)
  | [] => []
  | call :: rest =>
    (computeChangelogPure call.1 previous call.2).1 ::
      runSyncs (computeChangelogPure call.1 previous call.2).1 rest

/-- Once every previous `X`-entity carries `createdAt = t0`, all later
cycles keep inheriting it, while `updatedAt` tracks each cycle's own
timestamp. -/
theorem runSyncs_inherits (X t0 : String) (hX : X ≠ "") (ht0 : t0 ≠ "") :
    ∀ (calls : List (List EstObj × String)) (prev : List EstObj),
      (∀ p ∈ prev, p.id = .jstr X → p.createdAt = .jstr t0) →
      (∃ p ∈ prev, p.id = .jstr X) →
      (∀ call ∈ calls, ∃ e ∈ call.1, e.id = .jstr X) →
      (∀ call ∈ calls, ∀ e ∈ call.1, e.id = .jstr X →
        e.createdAt.truthy = false) →
      ∀ i, ∀ e ∈ (runSyncs prev calls).getD i [], e.id = .jstr X →
        e.createdAt = .jstr t0 ∧
        e.updatedAt = .jstr ((calls.getD i ([], "")).2) := by
  intro calls
  induction calls with
  | nil =>
    intro prev _ _ _ _ i e he
    simp [runSyncs] at he
  | cons call rest ih =>
    intro prev hinv hex hpres hfresh i e he hid
    cases i with
    | zero =>
      simp only [runSyncs, List.getD_cons_zero] at he ⊢
      exact pureCall_X_later call.1 prev call.2 X t0 hX ht0 hinv hex
        (hfresh call (List.mem_cons_self _ _)) e he hid
    | succ i =>
      simp only [runSyncs, List.getD_cons_succ] at he ⊢
      refine ih (computeChangelogPure call.1 prev call.2).1
        (fun p hp hpid =>
          (pureCall_X_later call.1 prev call.2 X t0 hX ht0 hinv hex
            (hfresh call (List.mem_cons_self _ _)) p hp hpid).1)
        (pureCall_X_presence call.1 prev call.2 X
          (hpres call (List.mem_cons_self _ _)))
        (fun c hc => hpres c (List.mem_cons_of_mem _ hc))
        (fun c hc => hfresh c (List.mem_cons_of_mem _ hc))
        i e he hid

/-- Claim C2: for an entity id `X` observed in the current list across
`N` consecutive `computeChangelogEntries` calls with strictly
increasing (non-blank) sync timestamps, each call's `previous` being
the prior call's stamped output and the initial snapshot not containing
`X`, the entity's `createdAt` equals the first call's timestamp in all
`N` results, and its `updatedAt` equals the timestamp of the call that
produced the result — i.e. of the most recent call that observed it. -/
theorem entity_timestamps_across_syncs (X : String) (c0 : List EstObj)
    (t0 : String) (rest : List (List EstObj × String))
    (previous0 : List EstObj)
    (hX : X ≠ "")
    (hprev0 : ∀ p ∈ previous0, p.id ≠ .jstr X)
    (hpres : ∀ call ∈ (c0, t0) :: rest, ∃ e ∈ call.1, e.id = .jstr X)
    (hfresh : ∀ call ∈ (c0, t0) :: rest, ∀ e ∈ call.1, e.id = .jstr X →
      e.createdAt.truthy = false)
    (hmono : List.Chain' (fun a b => a < b) (((c0, t0) :: rest).map (·.2)))
    (hne : ∀ call ∈ (c0, t0) :: rest, call.2 ≠ "") :
    ∀ i, ∀ e ∈ (runSyncs previous0 ((c0, t0) :: rest)).getD i [],
      e.id = .jstr X →
      e.createdAt = .jstr t0 ∧
      e.updatedAt = .jstr ((((c0, t0) :: rest).getD i ([], "")).2) := by
  have ht0 : t0 ≠ "" := hne (c0, t0) (List.mem_cons_self _ _)
  intro i e he hid
  cases i with
  | zero =>
    simp only [runSyncs, List.getD_cons_zero] at he ⊢
    exact pureCall_X_first c0 previous0 t0 X hX hprev0
      (hfresh (c0, t0) (List.mem_cons_self _ _)) e he hid
  | succ i =>
    simp only [runSyncs, List.getD_cons_succ] at he ⊢
    refine runSyncs_inherits X t0 hX ht0 rest
      (computeChangelogPure c0 previous0 t0).1
      (fun p hp hpid =>
        (pureCall_X_first c0 previous0 t0 X hX hprev0
          (hfresh (c0, t0) (List.mem_cons_self _ _)) p hp hpid).1)
      (pureCall_X_presence c0 previous0 t0 X
        (hpres (c0, t0) (List.mem_cons_self _ _)))
      (fun c hc => hpres c (List.mem_cons_of_mem _ hc))
      (fun c hc => hfresh c (List.mem_cons_of_mem _ hc))
      i e he hid

/-- The single entity the second sync of the C2 witness scenario
outputs. -/
def c2Out : EstObj :=
  { id := .jstr "x", createdAt := .jstr "T1", updatedAt := .jstr "T2",
    removedAt := .jnull }

/-- Witness for C2: an entity with id `"x"` observed in two consecutive
syncs at timestamps `"T1" < "T2"`: the second output is exactly one
entity, still carrying `createdAt = "T1"` while `updatedAt` advanced to
`"T2"`. -/
theorem entity_timestamps_across_syncs_witness :
    (runSyncs []
        [([({ id := .jstr "x" } : EstObj)], "T1"),
         ([({ id := .jstr "x" } : EstObj)], "T2")]).getD 1 [] = [c2Out] ∧
    c2Out.id = .jstr "x" ∧
    c2Out.createdAt = .jstr "T1" ∧ c2Out.updatedAt = .jstr "T2" := by
  have hlist : (runSyncs []
      [([({ id := .jstr "x" } : EstObj)], "T1"),
       ([({ id := .jstr "x" } : EstObj)], "T2")]).getD 1 [] = [c2Out] := by
    with_unfolding_all rfl
  have hmem : c2Out ∈ (runSyncs []
      [([({ id := .jstr "x" } : EstObj)], "T1"),
       ([({ id := .jstr "x" } : EstObj)], "T2")]).getD 1 [] := by
    rw [hlist]; exact List.mem_cons_self _ _
  have hmain := entity_timestamps_across_syncs "x" [{ id := .jstr "x" }] "T1"
    [([({ id := .jstr "x" } : EstObj)], "T2")] []
    (by decide)
    (by intro p hp; exact absurd hp (by simp))
    (by
      intro call hc
      fin_cases hc
      · exact ⟨_, List.mem_cons_self _ _, rfl⟩
      · exact ⟨_, List.mem_cons_self _ _, rfl⟩)
    (by
      intro call hc e' he' hid'
      fin_cases hc <;> ((fin_cases he'); rfl))
    (by
      constructor
      · with_unfolding_all decide
      · exact List.chain'_singleton _)
    (by
      intro call hc
      fin_cases hc <;> decide)
    1 c2Out hmem rfl
  exact ⟨hlist, rfl, hmain.1, hmain.2⟩

/-- The characters of a trimmed string, as a right-drop of a
left-drop. -/
theorem jsTrim_data (s : String) :
    (jsTrim s).data =
      (s.data.dropWhile jsWhitespaceChar).rdropWhile jsWhitespaceChar := rfl

/-- `trim` is idempotent. -/
theorem jsTrim_idem (s : String) : jsTrim (jsTrim s) = jsTrim s := by
  have hdata : (jsTrim (jsTrim s)).data = (jsTrim s).data := by
    rw [jsTrim_data (jsTrim s), jsTrim_data s]
    have h1 : (((s.data.dropWhile jsWhitespaceChar).rdropWhile
        jsWhitespaceChar).dropWhile jsWhitespaceChar) =
        (s.data.dropWhile jsWhitespaceChar).rdropWhile jsWhitespaceChar := by
      rw [List.dropWhile_eq_self_iff]
      intro hl
      obtain ⟨t, hts⟩ :=
        List.rdropWhile_prefix jsWhitespaceChar (s.data.dropWhile jsWhitespaceChar)
      have hX0 : 0 < (s.data.dropWhile jsWhitespaceChar).length := by
        rw [← hts, List.length_append]
        omega
      have hopt : (s.data.dropWhile jsWhitespaceChar)[0]? =
          ((s.data.dropWhile jsWhitespaceChar).rdropWhile jsWhitespaceChar)[0]? := by
        conv_lhs => rw [← hts]
        exact List.getElem?_append_left hl
      have hget : ((s.data.dropWhile jsWhitespaceChar).rdropWhile
          jsWhitespaceChar).get ⟨0, hl⟩ =
          (s.data.dropWhile jsWhitespaceChar).get ⟨0, hX0⟩ := by
        have h2 := hopt
        rw [List.getElem?_eq_getElem hX0, List.getElem?_eq_getElem hl] at h2
        rw [List.get_eq_getElem, List.get_eq_getElem]
        exact (Option.some_inj.mp h2).symm
      rw [hget]
      exact List.dropWhile_get_zero_not _ s.data hX0
    rw [h1]
    exact List.rdropWhile_idempotent _ _
  cases hs : jsTrim (jsTrim s)
  cases ht : jsTrim s
  rw [hs, ht] at hdata
  simp only at hdata
  rw [hdata]

/-- Membership in the `Set`-insertion iteration. -/
theorem dedupGo_mem [DecidableEq α] :
    ∀ (l seen : List α) (x : α),
      x ∈ dedupGo seen l ↔ x ∈ l ∧ x ∉ seen := by
  intro l
  induction l with
  | nil => intro seen x; simp [dedupGo]
  | cons a l ih =>
    intro seen x
    unfold dedupGo
    split
    · rename_i ha
      rw [ih]
      constructor
      · exact fun ⟨h1, h2⟩ => ⟨List.mem_cons_of_mem _ h1, h2⟩
      · rintro ⟨h1, h2⟩
        rcases List.mem_cons.mp h1 with rfl | h1
        · exact absurd ha h2
        · exact ⟨h1, h2⟩
    · rename_i ha
      rw [List.mem_cons, ih]
      constructor
      · rintro (rfl | ⟨h1, h2⟩)
        · exact ⟨List.mem_cons_self _ _, ha⟩
        · exact ⟨List.mem_cons_of_mem _ h1,
            fun hc => h2 (List.mem_append_left _ hc)⟩
      · rintro ⟨h1, h2⟩
        rcases List.mem_cons.mp h1 with rfl | h1
        · exact Or.inl rfl
        · by_cases hxa : x = a
          · exact Or.inl hxa
          · refine Or.inr ⟨h1, fun hc => ?_⟩
            rcases List.mem_append.mp hc with hc | hc
            · exact h2 hc
            · exact hxa (List.mem_singleton.mp hc)

/-- The `Set`-insertion iteration never repeats an element. -/
theorem dedupGo_nodup [DecidableEq α] :
    ∀ (l seen : List α), (dedupGo seen l).Nodup := by
  intro l
  induction l with
  | nil => intro seen; simp [dedupGo]
  | cons a l ih =>
    intro seen
    unfold dedupGo
    split
    · exact ih seen
    · refine List.nodup_cons.mpr ⟨fun hc => ?_, ih _⟩
      exact ((dedupGo_mem l _ a).mp hc).2 (List.mem_append_right _ (by simp))

/-- Deduplication is the identity on duplicate-free lists. -/
theorem dedupGo_eq_self [DecidableEq α] :
    ∀ (l seen : List α), (∀ x ∈ l, x ∉ seen) → l.Nodup →
      dedupGo seen l = l := by
  intro l
  induction l with
  | nil => intro seen _ _; rfl
  | cons a l ih =>
    intro seen hdisj hnd
    obtain ⟨hal, hnd'⟩ := List.nodup_cons.mp hnd
    unfold dedupGo
    rw [if_neg (hdisj a (List.mem_cons_self _ _))]
    rw [ih (seen ++ [a]) ?_ hnd']
    intro x hx hc
    rcases List.mem_append.mp hc with hc | hc
    · exact hdisj x (List.mem_cons_of_mem _ hx) hc
    · rw [List.mem_singleton.mp hc] at hx
      exact hal hx

/-- `dedupKeepFirst` preserves the element set. -/
theorem dedupKeepFirst_toFinset [DecidableEq α] (l : List α) :
    (dedupKeepFirst l).toFinset = l.toFinset := by
  ext x
  simp [dedupKeepFirst, List.mem_toFinset, dedupGo_mem]

/-- `dedupKeepFirst` has no duplicates. -/
theorem dedupKeepFirst_nodup [DecidableEq α] (l : List α) :
    (dedupKeepFirst l).Nodup := dedupGo_nodup l []

/-- `dedupKeepFirst` on a duplicate-free list is the identity. -/
theorem dedupKeepFirst_eq_self [DecidableEq α] {l : List α} (h : l.Nodup) :
    dedupKeepFirst l = l := dedupGo_eq_self l [] (by simp) h

/-- Membership in `dedupKeepFirst`. -/
theorem dedupKeepFirst_mem [DecidableEq α] {l : List α} {x : α} :
    x ∈ dedupKeepFirst l ↔ x ∈ l := by
  rw [dedupKeepFirst, dedupGo_mem]
  simp

/-- Membership in a sorted insertion. -/
theorem sortedInsert_mem (le : α → α → Bool) (x y : α) :
    ∀ l : List α, y ∈ sortedInsert le x l ↔ y = x ∨ y ∈ l := by
  intro l
  induction l with
  | nil => simp [sortedInsert]
  | cons a l ih =>
    unfold sortedInsert
    split
    · simp [List.mem_cons]
    · rw [List.mem_cons, ih, List.mem_cons]
      tauto

/-- Insertion sort preserves membership. -/
theorem insertionSort_mem (le : α → α → Bool) (y : α) :
    ∀ l : List α, y ∈ insertionSort le l ↔ y ∈ l := by
  intro l
  induction l with
  | nil => simp [insertionSort]
  | cons a l ih =>
    unfold insertionSort
    rw [sortedInsert_mem, ih, List.mem_cons]

/-- Insertion sort preserves freedom from duplicates. -/
theorem insertionSort_nodup (le : α → α → Bool) :
    ∀ l : List α, l.Nodup → (insertionSort le l).Nodup := by
  intro l
  induction l with
  | nil => intro _; simp [insertionSort]
  | cons a l ih =>
    intro hnd
    obtain ⟨hal, hnd'⟩ := List.nodup_cons.mp hnd
    unfold insertionSort
    have hins : ∀ m : List α, m.Nodup → a ∉ m →
        (sortedInsert le a m).Nodup := by
      intro m
      induction m with
      | nil => intro _ _; simp [sortedInsert]
      | cons b m ihm =>
        intro hm ham
        obtain ⟨hbm, hm'⟩ := List.nodup_cons.mp hm
        unfold sortedInsert
        split
        · exact List.nodup_cons.mpr ⟨ham, hm⟩
        · refine List.nodup_cons.mpr ⟨fun hc => ?_, ihm hm'
            (fun hc => ham (List.mem_cons_of_mem _ hc))⟩
          rcases (sortedInsert_mem le a b m).mp hc with rfl | hc
          · exact ham (List.mem_cons_self _ _)
          · exact hbm hc
    exact hins _ (ih hnd') (fun hc => hal ((insertionSort_mem le a l).mp hc))

/-- Insertion sort preserves the element set. -/
theorem insertionSort_toFinset [DecidableEq α] (le : α → α → Bool)
    (l : List α) : (insertionSort le l).toFinset = l.toFinset := by
  ext x
  simp [List.mem_toFinset, insertionSort_mem]

/-- A string is non-empty exactly when its length is positive. -/
theorem string_length_pos_iff (s : String) : 0 < s.length ↔ s ≠ "" := by
  cases s with
  | mk data =>
    cases data with
    | nil => simp [String.length]
    | cons c cs =>
      simp only [String.length]
      constructor
      · intro _ h
        have : (c :: cs : List Char) = [] := congrArg String.data h
        cases this
      · intro _
        simp

/-- Reading the strings back out of a string array. -/
theorem strListOf_map_jstr : ∀ l : List String,
    strListOf (.jarr (l.map .jstr)) = l
  | [] => rfl
  | a :: l => by
    have ih := strListOf_map_jstr l
    unfold strListOf at ih ⊢
    simpa using ih

/-- Reading the numbers back out of a finite-number array. -/
theorem numListOf_map_jnum (l : List ℚ) :
    numListOf (.jarr (l.map (fun q => .jnum (.num q)))) = l := by
  unfold numListOf
  induction l with
  | nil => rfl
  | cons a l ih => simpa using ih

/-- Every element of a `toStringArray` result is trim-fixed and
non-empty. -/
theorem toStringArray_elems (v : JSVal) :
    ∀ x ∈ toStringArray v, jsTrim x = x ∧ x ≠ "" := by
  intro x hx
  unfold toStringArray at hx
  split at hx
  · rw [dedupKeepFirst_mem, List.mem_filter] at hx
    obtain ⟨hmem, hlen⟩ := hx
    obtain ⟨y, _, hy⟩ := List.mem_map.mp hmem
    constructor
    · rw [← hy]
      exact jsTrim_idem _
    · rw [← string_length_pos_iff]
      simpa using hlen
  · rename_i s
    by_cases hlen : 0 < (jsTrim s).length
    · have hx2 : x = jsTrim s := by simpa [hlen] using hx
      subst hx2
      exact ⟨jsTrim_idem _, (string_length_pos_iff _).mp hlen⟩
    · simp [hlen] at hx
  · exact absurd hx (by simp)

/-- `toStringArray` results carry no duplicates. -/
theorem toStringArray_nodup (v : JSVal) : (toStringArray v).Nodup := by
  unfold toStringArray
  split
  · exact dedupKeepFirst_nodup _
  · rename_i s
    by_cases hlen : 0 < (jsTrim s).length
    · simp [hlen]
    · simp [hlen]
  · exact List.nodup_nil

/-- `toNumberArray` results carry no duplicates. -/
theorem toNumberArray_nodup (v : JSVal) : (toNumberArray v).Nodup := by
  unfold toNumberArray
  split
  · exact dedupKeepFirst_nodup _
  · split
    · exact List.nodup_singleton _
    · exact List.nodup_nil
  · split
    · split
      · exact List.nodup_singleton _
      · exact List.nodup_nil
    · exact List.nodup_nil
  · exact List.nodup_nil

/-- `toStringArray` is the identity on an array of trim-fixed,
non-empty, duplicate-free strings. -/
theorem toStringArray_fixpoint {l : List String}
    (helems : ∀ x ∈ l, jsTrim x = x ∧ x ≠ "") (hnd : l.Nodup) :
    toStringArray (.jarr (l.map .jstr)) = l := by
  unfold toStringArray
  dsimp only
  rw [List.map_map]
  have hmap : l.map ((fun v => jsTrim (jsToString v)) ∘ JSVal.jstr) = l := by
    have := List.map_congr_left (l := l)
      (f := (fun v => jsTrim (jsToString v)) ∘ JSVal.jstr) (g := id)
      (fun a ha => (helems a ha).1)
    rw [this, List.map_id]
  rw [hmap]
  have hfilter : l.filter (fun v => v.length > 0) = l := by
    rw [List.filter_eq_self]
    intro a ha
    simpa [string_length_pos_iff] using (helems a ha).2
  rw [hfilter]
  exact dedupKeepFirst_eq_self hnd

/-- `toNumberArray` is the identity on an array of distinct finite
numbers. -/
theorem toNumberArray_fixpoint {l : List ℚ} (hnd : l.Nodup) :
    toNumberArray (.jarr (l.map (fun q => .jnum (.num q)))) = l := by
  unfold toNumberArray
  dsimp only
  have hmap : ∀ m : List ℚ, (m.map (fun q => JSVal.jnum (.num q))).filterMap
      (fun v => match jsToNumber v with
        | JSNum.num q => some q
        | _ => none) = m := by
    intro m
    induction m with
    | nil => rfl
    | cons a m ih => simpa [jsToNumber] using ih
  rw [hmap l]
  exact dedupKeepFirst_eq_self hnd

/-- `uniqueStrings` on a list of non-empty strings: same element set,
no duplicates, elements preserved. -/
theorem uniqueStrings_spec {xs : List String}
    (hne : ∀ x ∈ xs, x ≠ "") :
    (uniqueStrings xs).toFinset = xs.toFinset ∧
    (uniqueStrings xs).Nodup ∧
    (∀ x ∈ uniqueStrings xs, x ∈ xs) := by
  have hfilter : xs.filter (fun v => v ≠ "") = xs := by
    rw [List.filter_eq_self]
    intro a ha
    simpa using hne a ha
  unfold uniqueStrings
  rw [hfilter]
  exact ⟨dedupKeepFirst_toFinset xs, dedupKeepFirst_nodup xs,
    fun x hx => dedupKeepFirst_mem.mp hx⟩

/-- `uniqueNumbers`: same element set, no duplicates. -/
theorem uniqueNumbers_spec (xs : List ℚ) :
    (uniqueNumbers xs).toFinset = xs.toFinset ∧ (uniqueNumbers xs).Nodup := by
  unfold uniqueNumbers
  rw [insertionSort_toFinset, dedupKeepFirst_toFinset]
  exact ⟨rfl, insertionSort_nodup _ _ (dedupKeepFirst_nodup xs)⟩

/-- The `categories` field the shape normalization produces. -/
theorem normalize_categories_shape (e : EstObj) :
    (normalizeEstablishmentShape e).categories =
      .jarr ((toStringArray
        (if e.categories.nullish then .jarr [] else e.categories)).map .jstr) := rfl

/-- The `filter` field the shape normalization produces. -/
theorem normalize_filter_shape (e : EstObj) :
    (normalizeEstablishmentShape e).filter =
      .jarr ((toNumberArray e.filter).map (fun q => .jnum (.num q))) := rfl

/-- Projection of a conditional record. -/
theorem ite_categories (c : Prop) [Decidable c] (a b : EstObj) :
    (if c then a else b).categories =
      if c then a.categories else b.categories := by
  split <;> rfl

/-- Projection of a conditional record. -/
theorem ite_filter (c : Prop) [Decidable c] (a b : EstObj) :
    (if c then a else b).filter = if c then a.filter else b.filter := by
  split <;> rfl

/-- The merged `categories` field: the deduplicated union of the
normalized category lists of both sides. -/
theorem merge_categories_eq (A inc : EstObj) :
    (mergeEstablishment A inc).categories =
      .jarr ((uniqueStrings (toStringArray A.categories ++
        strListOf (normalizeEstablishmentShape inc).categories)).map .jstr) := by
  unfold mergeEstablishment
  dsimp only
  simp only [ite_categories]
  simp only [ite_self]

/-- The merged `filter` field: the deduplicated, sorted union of the
normalized filter lists of both sides. -/
theorem merge_filter_eq (A inc : EstObj) :
    (mergeEstablishment A inc).filter =
      .jarr ((uniqueNumbers (toNumberArray A.filter ++
        numListOf (normalizeEstablishmentShape inc).filter)).map
          (fun q => .jnum (.num q))) := by
  unfold mergeEstablishment
  dsimp only
  simp only [ite_filter]
  simp only [ite_self]

/-- The set of category strings an incoming record contributes after
normalization. -/
def incomingCatSet (inc : EstObj) : Finset String :=
  (strListOf (normalizeEstablishmentShape inc).categories).toFinset

/-- The set of filter numbers an incoming record contributes after
normalization. -/
def incomingFilterSet (inc : EstObj) : Finset ℚ :=
  (numListOf (normalizeEstablishmentShape inc).filter).toFinset

/-- Folding `mergeEstablishment` over any list of incoming records
keeps the accumulator's category and filter arrays in normalized shape,
with element sets equal to the union of the initial sets and every
incoming record's normalized contribution. -/
theorem mergeAll_sets :
    ∀ (incs : List EstObj) (l : List String) (m : List ℚ) (A : EstObj),
      A.categories = .jarr (l.map .jstr) →
      (∀ x ∈ l, jsTrim x = x ∧ x ≠ "") → l.Nodup →
      A.filter = .jarr (m.map (fun q => .jnum (.num q))) → m.Nodup →
      ∃ (l' : List String) (m' : List ℚ),
        (incs.foldl mergeEstablishment A).categories = .jarr (l'.map .jstr) ∧
        (∀ x ∈ l', jsTrim x = x ∧ x ≠ "") ∧ l'.Nodup ∧
        l'.toFinset = l.toFinset ∪
          incs.foldr (fun inc acc => incomingCatSet inc ∪ acc) ∅ ∧
        (incs.foldl mergeEstablishment A).filter =
          .jarr (m'.map (fun q => .jnum (.num q))) ∧
        m'.Nodup ∧
        m'.toFinset = m.toFinset ∪
          incs.foldr (fun inc acc => incomingFilterSet inc ∪ acc) ∅ := by
  intro incs
  induction incs with
  | nil =>
    intro l m A hcat hel hndl hfil hndm
    exact ⟨l, m, hcat, hel, hndl, by simp, hfil, hndm, by simp⟩
  | cons inc incs ih =>
    intro l m A hcat hel hndl hfil hndm
    rw [List.foldl_cons]
    have hcat' : (mergeEstablishment A inc).categories =
        .jarr ((uniqueStrings (l ++
          strListOf (normalizeEstablishmentShape inc).categories)).map .jstr) := by
      rw [merge_categories_eq, hcat, toStringArray_fixpoint hel hndl]
    have hfil' : (mergeEstablishment A inc).filter =
        .jarr ((uniqueNumbers (m ++
          numListOf (normalizeEstablishmentShape inc).filter)).map
            (fun q => .jnum (.num q))) := by
      rw [merge_filter_eq, hfil, toNumberArray_fixpoint hndm]
    have hincel : ∀ x ∈ strListOf (normalizeEstablishmentShape inc).categories,
        jsTrim x = x ∧ x ≠ "" := by
      rw [normalize_categories_shape, strListOf_map_jstr]
      exact toStringArray_elems _
    have hne : ∀ x ∈ l ++ strListOf (normalizeEstablishmentShape inc).categories,
        x ≠ "" := by
      intro x hx
      rcases List.mem_append.mp hx with h | h
      · exact (hel x h).2
      · exact (hincel x h).2
    obtain ⟨hsfin, hsnd, hssub⟩ := uniqueStrings_spec hne
    have hel1 : ∀ x ∈ uniqueStrings (l ++
        strListOf (normalizeEstablishmentShape inc).categories),
        jsTrim x = x ∧ x ≠ "" := by
      intro x hx
      rcases List.mem_append.mp (hssub x hx) with h | h
      · exact hel x h
      · exact hincel x h
    obtain ⟨hmfin, hmnd⟩ := uniqueNumbers_spec (m ++
      numListOf (normalizeEstablishmentShape inc).filter)
    obtain ⟨l', m', h1, h2, h3, h4, h5, h6, h7⟩ :=
      ih (uniqueStrings (l ++ strListOf (normalizeEstablishmentShape inc).categories))
        (uniqueNumbers (m ++ numListOf (normalizeEstablishmentShape inc).filter))
        (mergeEstablishment A inc) hcat' hel1 hsnd hfil' hmnd
    refine ⟨l', m', h1, h2, h3, ?_, h5, h6, ?_⟩
    · rw [h4, hsfin, List.toFinset_append, List.foldr_cons, Finset.union_assoc]
      rfl
    · rw [h7, hmfin, List.toFinset_append, List.foldr_cons, Finset.union_assoc]
      rfl

/-- Claim C6: starting from a first-seen (normalized) accumulator
entity and merging any collection of compatible incoming duplicates one
by one, the resulting `categories` and `filter` fields, viewed as sets,
equal the union of the accumulator's and all incoming records'
normalized category/filter sets — and this resulting set is the same
for every insertion order of the incoming duplicates. -/
theorem merge_sets_union_and_order_invariant (A₀ : EstObj)
    (incs incs' : List EstObj)
    (hcompat : ∀ inc ∈ incs,
      shouldMergeEstablishments (normalizeEstablishmentShape A₀) inc = true)
    (hperm : incs.Perm incs') :
    (strListOf ((incs.foldl mergeEstablishment
        (normalizeEstablishmentShape A₀)).categories)).toFinset =
      (strListOf ((normalizeEstablishmentShape A₀).categories)).toFinset ∪
        incs.foldr (fun inc acc => incomingCatSet inc ∪ acc) ∅ ∧
    (numListOf ((incs.foldl mergeEstablishment
        (normalizeEstablishmentShape A₀)).filter)).toFinset =
      (numListOf ((normalizeEstablishmentShape A₀).filter)).toFinset ∪
        incs.foldr (fun inc acc => incomingFilterSet inc ∪ acc) ∅ ∧
    (strListOf ((incs'.foldl mergeEstablishment
        (normalizeEstablishmentShape A₀)).categories)).toFinset =
      (strListOf ((incs.foldl mergeEstablishment
        (normalizeEstablishmentShape A₀)).categories)).toFinset ∧
    (numListOf ((incs'.foldl mergeEstablishment
        (normalizeEstablishmentShape A₀)).filter)).toFinset =
      (numListOf ((incs.foldl mergeEstablishment
        (normalizeEstablishmentShape A₀)).filter)).toFinset := by
  have hcatshape := normalize_categories_shape A₀
  have hfilshape := normalize_filter_shape A₀
  have helems := toStringArray_elems
    (if A₀.categories.nullish then .jarr [] else A₀.categories)
  have hndl := toStringArray_nodup
    (if A₀.categories.nullish then .jarr [] else A₀.categories)
  have hndm := toNumberArray_nodup A₀.filter
  obtain ⟨l', m', h1, _, _, h4, h5, _, h7⟩ :=
    mergeAll_sets incs _ _ (normalizeEstablishmentShape A₀)
      hcatshape helems hndl hfilshape hndm
  obtain ⟨l'', m'', g1, _, _, g4, g5, _, g7⟩ :=
    mergeAll_sets incs' _ _ (normalizeEstablishmentShape A₀)
      hcatshape helems hndl hfilshape hndm
  haveI hlc : LeftCommutative
      (fun (inc : EstObj) (acc : Finset String) => incomingCatSet inc ∪ acc) :=
    ⟨fun a b c => by
      rw [← Finset.union_assoc, Finset.union_comm (incomingCatSet a),
        Finset.union_assoc]⟩
  haveI hlcf : LeftCommutative
      (fun (inc : EstObj) (acc : Finset ℚ) => incomingFilterSet inc ∪ acc) :=
    ⟨fun a b c => by
      rw [← Finset.union_assoc, Finset.union_comm (incomingFilterSet a),
        Finset.union_assoc]⟩
  have hfoldcat := hperm.foldr_eq (f := fun inc acc => incomingCatSet inc ∪ acc)
    (∅ : Finset String)
  have hfoldfil := hperm.foldr_eq
    (f := fun inc acc => incomingFilterSet inc ∪ acc) (∅ : Finset ℚ)
  have hAcat : strListOf (normalizeEstablishmentShape A₀).categories =
      toStringArray (if A₀.categories.nullish then .jarr [] else A₀.categories) := by
    rw [hcatshape, strListOf_map_jstr]
  have hAfil : numListOf (normalizeEstablishmentShape A₀).filter =
      toNumberArray A₀.filter := by
    rw [hfilshape, numListOf_map_jnum]
  refine ⟨?_, ?_, ?_, ?_⟩
  · rw [h1, strListOf_map_jstr, h4, hAcat]
  · rw [h5, numListOf_map_jnum, h7, hAfil]
  · rw [h1, g1, strListOf_map_jstr, strListOf_map_jstr, h4, g4, hfoldcat]
  · rw [h5, g5, numListOf_map_jnum, numListOf_map_jnum, h7, g7, hfoldfil]

/-- First-seen accumulator for the C6 witness. -/
def c6Acc : EstObj :=
  { id := .jstr "a", name := .jstr "Shop", city := .jstr "Paris"
    source := .jstr "AVS", lat := .jnum (.num 1), lng := .jnum (.num 2)
    categories := .jarr [.jstr "Restaurant"], filter := .jarr [.jnum (.num 2)] }

/-- First compatible incoming duplicate for the C6 witness. -/
def c6Inc1 : EstObj :=
  { id := .jstr "b", name := .jstr "Shop", city := .jstr "Paris"
    source := .jstr "AVS", lat := .jnum (.num 1), lng := .jnum (.num 2)
    categories := .jarr [.jstr "Boucherie"], filter := .jarr [.jnum (.num 1)] }

/-- Second compatible incoming duplicate for the C6 witness. -/
def c6Inc2 : EstObj :=
  { id := .jstr "c", name := .jstr "Shop", city := .jstr "Paris"
    source := .jstr "AVS", lat := .jnum (.num 1), lng := .jnum (.num 2)
    categories := .jarr [.jstr "Fournisseur"], filter := .jarr [.jnum (.num 3)] }

/-- Witness for C6 at two compatible incoming duplicates merged in both
orders. -/
theorem merge_sets_union_witness :
    (strListOf (([c6Inc1, c6Inc2].foldl mergeEstablishment
        (normalizeEstablishmentShape c6Acc)).categories)).toFinset =
      (strListOf ((normalizeEstablishmentShape c6Acc).categories)).toFinset ∪
        [c6Inc1, c6Inc2].foldr (fun inc acc => incomingCatSet inc ∪ acc) ∅ ∧
    (numListOf (([c6Inc1, c6Inc2].foldl mergeEstablishment
        (normalizeEstablishmentShape c6Acc)).filter)).toFinset =
      (numListOf ((normalizeEstablishmentShape c6Acc).filter)).toFinset ∪
        [c6Inc1, c6Inc2].foldr (fun inc acc => incomingFilterSet inc ∪ acc) ∅ ∧
    (strListOf (([c6Inc2, c6Inc1].foldl mergeEstablishment
        (normalizeEstablishmentShape c6Acc)).categories)).toFinset =
      (strListOf (([c6Inc1, c6Inc2].foldl mergeEstablishment
        (normalizeEstablishmentShape c6Acc)).categories)).toFinset ∧
    (numListOf (([c6Inc2, c6Inc1].foldl mergeEstablishment
        (normalizeEstablishmentShape c6Acc)).filter)).toFinset =
      (numListOf (([c6Inc1, c6Inc2].foldl mergeEstablishment
        (normalizeEstablishmentShape c6Acc)).filter)).toFinset :=
  merge_sets_union_and_order_invariant c6Acc [c6Inc1, c6Inc2] [c6Inc2, c6Inc1]
    (by
      intro inc hc
      fin_cases hc
      · with_unfolding_all rfl
      · with_unfolding_all rfl)
    (List.Perm.swap c6Inc2 c6Inc1 [])

end Certified
